import Mathlib

/-!
Verification of the cleansh sanitization core against its natural-language
specification.  Shallow embedding of the Rust sources: pure functions become
Lean functions, machine floats are modelled as real numbers (generic
linear-ordered-field definitions are instantiated at ℝ for the official
semantics and at ℚ for executable evaluation), stateful code is explicit
state passing, byte strings are lists of naturals.
-/

namespace Cleansh

/-! ## Rate governor

Embeds `RemediationGovernor` from `cleansh-core/src/remediation/orchestrator.rs`.
`Instant` timestamps are modelled as naturals; `now.duration_since(t) > window`
becomes `t + window < now` (call times are monotone, as guaranteed by the
monotone clock).  `SelfHealingEngine::new` fixes the window to 60 seconds. -/

structure GovState where
  maxActions : Nat
  window : Nat
  history : List Nat
  deriving Repr, DecidableEq

/-- Embeds `RemediationGovernor::allow_action`: drop timestamps strictly older than
the window, then permit (enqueuing `now`) iff fewer than `maxActions` remain. -/
def allowAction (g : GovState) (now : Nat) : Bool × GovState :=
  let h := g.history.dropWhile (fun t => decide (t + g.window < now))
  if h.length < g.maxActions then
    (true, { g with history := h ++ [now] })
  else
    (false, { g with history := h })

/-- Run a sequence of `allow_action` calls at the given times, collecting results. -/
def govRun (g : GovState) : List Nat → List Bool × GovState
  | [] => ([], g)
  | t :: ts =>
    ((allowAction g t).1 :: (govRun (allowAction g t).2 ts).1,
      (govRun (allowAction g t).2 ts).2)

/-- The times of the calls that returned `true` in a run. -/
def govTrueTimes (g : GovState) : List Nat → List Nat
  | [] => []
  | t :: ts =>
    (if (allowAction g t).1 then [t] else []) ++ govTrueTimes (allowAction g t).2 ts

theorem allowAction_pos (g : GovState) (now : Nat)
    (h : (g.history.dropWhile (fun t => decide (t + g.window < now))).length
      < g.maxActions) :
    allowAction g now = (true, ⟨g.maxActions, g.window,
      g.history.dropWhile (fun t => decide (t + g.window < now)) ++ [now]⟩) := by
  simp [allowAction, h]

theorem allowAction_neg (g : GovState) (now : Nat)
    (h : ¬ (g.history.dropWhile (fun t => decide (t + g.window < now))).length
      < g.maxActions) :
    allowAction g now = (false, ⟨g.maxActions, g.window,
      g.history.dropWhile (fun t => decide (t + g.window < now))⟩) := by
  simp [allowAction, h]

theorem govTrueTimes_subset (g : GovState) (ts : List Nat) :
    ∀ t ∈ govTrueTimes g ts, t ∈ ts := by
  induction ts generalizing g with
  | nil => intro t h; simp [govTrueTimes] at h
  | cons t0 rest ih =>
    intro t h
    simp only [govTrueTimes, List.mem_append] at h
    rcases h with h | h
    · by_cases hb : (allowAction g t0).1 <;> simp [hb] at h; simp [h]
    · exact List.mem_cons_of_mem _ (ih _ _ h)

theorem dropWhile_old_sound (W now : Nat) (l : List Nat) (hs : l.Pairwise (· ≤ ·)) :
    ∀ t ∈ l.dropWhile (fun t => decide (t + W < now)), now ≤ t + W := by
  induction l with
  | nil => intro t h; simp [List.dropWhile] at h
  | cons a l ih =>
    intro t h
    rw [List.dropWhile_cons] at h
    by_cases ha : a + W < now
    · rw [if_pos (by simp [ha])] at h
      exact ih hs.of_cons t h
    · rw [if_neg (by simp [ha])] at h
      rcases List.mem_cons.mp h with rfl | hmem
      · omega
      · have := List.rel_of_pairwise_cons hs hmem
        omega

/-- Membership in a window `[a, a + W]`, as a boolean predicate. -/
def inWin (a W t : Nat) : Bool := decide (a ≤ t) && decide (t ≤ a + W)

theorem gov_bound_aux (ts : List Nat) :
    ∀ (g : GovState) (a : Nat),
    ts.Pairwise (· ≤ ·) →
    g.history.Pairwise (· ≤ ·) →
    (∀ t ∈ g.history, ∀ u ∈ ts, t ≤ u) →
    g.history.length ≤ g.maxActions →
    ((govTrueTimes g ts).filter (inWin a g.window)).length
      + (g.history.filter (inWin a g.window)).length ≤ g.maxActions := by
  induction ts with
  | nil =>
    intro g a _ _ _ hlen
    simp only [govTrueTimes, List.filter_nil, List.length_nil, Nat.zero_add]
    calc (g.history.filter (inWin a g.window)).length
        ≤ g.history.length := List.length_filter_le _ _
      _ ≤ g.maxActions := hlen
  | cons t0 rest ih =>
    intro g a hmono hsort hle hlen
    have hmono_rest : rest.Pairwise (· ≤ ·) := hmono.of_cons
    have ht0_rest : ∀ u ∈ rest, t0 ≤ u := fun u hu => List.rel_of_pairwise_cons hmono hu
    -- decompose the history pruning
    set p : Nat → Bool := fun t => decide (t + g.window < t0) with hp
    have hsplit : g.history.takeWhile p ++ g.history.dropWhile p = g.history :=
      List.takeWhile_append_dropWhile p g.history
    have hkeep_sorted : (g.history.dropWhile p).Pairwise (· ≤ ·) :=
      hsort.sublist (List.dropWhile_sublist _)
    have hkeep_sub : ∀ t ∈ g.history.dropWhile p, t ∈ g.history :=
      fun t ht => (List.dropWhile_sublist _).mem ht
    have hkeep_le : ∀ t ∈ g.history.dropWhile p, ∀ u ∈ rest, t ≤ u :=
      fun t ht u hu => hle t (hkeep_sub t ht) u (List.mem_cons_of_mem _ hu)
    have hkeep_le_t0 : ∀ t ∈ g.history.dropWhile p, t ≤ t0 :=
      fun t ht => hle t (hkeep_sub t ht) t0 (List.mem_cons_self _ _)
    have hkeep_len : (g.history.dropWhile p).length ≤ g.history.length :=
      (List.dropWhile_sublist _).length_le
    have hfilter_split :
        (g.history.filter (inWin a g.window)).length
          = ((g.history.takeWhile p).filter (inWin a g.window)).length
            + ((g.history.dropWhile p).filter (inWin a g.window)).length := by
      conv_lhs => rw [← hsplit]
      rw [List.filter_append, List.length_append]
    by_cases hdropwin : ∃ t ∈ g.history.takeWhile p, inWin a g.window t
    · -- a pruned timestamp lies in the window: then t0 and everything later
      -- is beyond the window, so no further true falls in it
      obtain ⟨t, htmem, htwin⟩ := hdropwin
      have htp : p t = true := List.mem_takeWhile_imp htmem
      have htwin' : a ≤ t ∧ t ≤ a + g.window := by
        simpa [inWin, Bool.and_eq_true] using htwin
      have ht0big : a + g.window < t0 := by
        simp only [hp, decide_eq_true_eq] at htp
        omega
      have hnowin : ∀ u ∈ govTrueTimes g (t0 :: rest), inWin a g.window u = false := by
        intro u hu
        have hu_time : u ∈ t0 :: rest := govTrueTimes_subset _ _ u hu
        have : t0 ≤ u := by
          rcases List.mem_cons.mp hu_time with rfl | h
          · exact le_refl _
          · exact ht0_rest u h
        simp only [inWin, Bool.and_eq_false_iff, decide_eq_false_iff_not]
        right; omega
      have : (govTrueTimes g (t0 :: rest)).filter (inWin a g.window) = [] :=
        List.filter_eq_nil_iff.mpr (fun u hu => by simp [hnowin u hu])
      rw [this]
      simp only [List.length_nil, Nat.zero_add]
      calc (g.history.filter (inWin a g.window)).length
          ≤ g.history.length := List.length_filter_le _ _
        _ ≤ g.maxActions := hlen
    · -- no pruned timestamp is in the window
      push_neg at hdropwin
      have hdropzero : (g.history.takeWhile p).filter (inWin a g.window) = [] :=
        List.filter_eq_nil_iff.mpr (fun t ht => by
          intro hc
          exact hdropwin t ht hc)
      rw [hfilter_split, hdropzero]
      simp only [List.length_nil, Nat.zero_add]
      -- unfold one step of the run
      by_cases hb : (g.history.dropWhile p).length < g.maxActions
      · -- the call at t0 returns true and enqueues t0
        have hstep : govTrueTimes g (t0 :: rest)
            = [t0] ++ govTrueTimes
                ⟨g.maxActions, g.window, g.history.dropWhile p ++ [t0]⟩ rest := by
          simp only [govTrueTimes, allowAction_pos g t0 hb, if_true]
        rw [hstep]
        have hg2sort : (g.history.dropWhile p ++ [t0]).Pairwise (· ≤ ·) := by
          apply List.pairwise_append.mpr
          refine ⟨hkeep_sorted, List.pairwise_singleton _ _, ?_⟩
          intro t ht u hu
          rw [List.mem_singleton] at hu
          subst hu
          exact hkeep_le_t0 t ht
        have hg2le : ∀ t ∈ g.history.dropWhile p ++ [t0], ∀ u ∈ rest, t ≤ u := by
          intro t ht u hu
          rcases List.mem_append.mp ht with h | h
          · exact hkeep_le t h u hu
          · rw [List.mem_singleton] at h; subst h; exact ht0_rest u hu
        have hg2len : (g.history.dropWhile p ++ [t0]).length ≤ g.maxActions := by
          rw [List.length_append, List.length_singleton]
          omega
        have hrec := ih ⟨g.maxActions, g.window, g.history.dropWhile p ++ [t0]⟩ a
          hmono_rest hg2sort hg2le hg2len
        by_cases ht0win : inWin a g.window t0 = true
        · simp only [List.filter_append, List.length_append, List.filter_cons,
            List.filter_nil, ht0win, if_true, List.length_cons, List.length_nil] at hrec ⊢
          omega
        · rw [Bool.not_eq_true] at ht0win
          simp only [List.filter_append, List.length_append, List.filter_cons,
            List.filter_nil, ht0win, if_false, List.length_cons, List.length_nil] at hrec ⊢
          omega
      · -- the call at t0 returns false
        have hstep : govTrueTimes g (t0 :: rest)
            = govTrueTimes ⟨g.maxActions, g.window, g.history.dropWhile p⟩ rest := by
          simp only [govTrueTimes, allowAction_neg g t0 hb, if_false]
          simp
        rw [hstep]
        have hrec := ih ⟨g.maxActions, g.window, g.history.dropWhile p⟩ a
          hmono_rest hkeep_sorted hkeep_le (le_trans hkeep_len hlen)
        exact hrec

/-- C4: the rate governor keeps a queue of timestamps: on `allow()`, timestamps
older than the window (60 s default in `SelfHealingEngine::new`) are dropped and
the call returns true (enqueuing now) iff the queue size is below `max_actions`;
for monotone call times, at most `max_actions` calls return true within any
sliding window of the configured length; with `max_actions = 2`, three
consecutive calls inside one window return true, true, false. -/
theorem governor_sliding_window (N W : Nat) (ts : List Nat)
    (hmono : ts.Pairwise (· ≤ ·)) :
    (∀ a, ((govTrueTimes ⟨N, W, []⟩ ts).filter (inWin a W)).length ≤ N)
    ∧ (∀ (g : GovState) (now : Nat),
        (allowAction g now).1 = true ↔
          (g.history.dropWhile (fun t => decide (t + g.window < now))).length
            < g.maxActions)
    ∧ (∀ (g : GovState) (now : Nat), (allowAction g now).1 = true →
        (allowAction g now).2.history
          = g.history.dropWhile (fun t => decide (t + g.window < now)) ++ [now])
    ∧ (govRun ⟨2, 60, []⟩ [0, 1, 2]).1 = [true, true, false] := by
  refine ⟨?_, ?_, ?_, ?_⟩
  · intro a
    have h := gov_bound_aux ts ⟨N, W, []⟩ a hmono (by simp) (by simp) (by simp)
    simpa using h
  · intro g now
    by_cases hb : (g.history.dropWhile
        (fun t => decide (t + g.window < now))).length < g.maxActions
    · rw [allowAction_pos g now hb]; simpa using hb
    · rw [allowAction_neg g now hb]; simpa using hb
  · intro g now htrue
    by_cases hb : (g.history.dropWhile
        (fun t => decide (t + g.window < now))).length < g.maxActions
    · rw [allowAction_pos g now hb]
    · rw [allowAction_neg g now hb] at htrue; simp at htrue
  · decide

/-- Witness for C4 at a concrete run. -/
theorem governor_sliding_window_witness :
    ((govTrueTimes ⟨2, 60, []⟩ [0, 1, 2]).filter (inWin 0 60)).length ≤ 2 :=
  (governor_sliding_window 2 60 [0, 1, 2] (by decide)).1 0

/-! ## Statistics kernel

Embeds `compute_stats` from `cleansh-entropy/src/statistics/mod.rs`.
Floats are modelled as real numbers. -/

/-- Arithmetic mean, `values.iter().sum::<f64>() / len`. -/
noncomputable def statsMean (values : List ℝ) : ℝ := values.sum / values.length

/-- Population variance: the mean of squared differences from the mean,
`.map(|value| diff * diff).sum::<f64>() / len` (division by `n`, not `n - 1`). -/
noncomputable def statsVariance (values : List ℝ) : ℝ :=
  (values.map (fun v => (statsMean values - v) * (statsMean values - v))).sum
    / values.length

/-- Embeds `compute_stats`: `(mean, std_dev)` with `std_dev = sqrt(variance)`;
the empty sample list yields `(0, 0)`. -/
noncomputable def computeStats (values : List ℝ) : ℝ × ℝ :=
  if values = [] then (0, 0)
  else (statsMean values, Real.sqrt (statsVariance values))

theorem statsMean_example : statsMean [2, 4, 4, 4, 5, 5, 7, 9] = 5 := by
  simp only [statsMean, List.sum_cons, List.sum_nil, List.length_cons,
    List.length_nil]
  norm_num

theorem statsVariance_example : statsVariance [2, 4, 4, 4, 5, 5, 7, 9] = 4 := by
  simp only [statsVariance, statsMean_example, List.map_cons, List.map_nil,
    List.sum_cons, List.sum_nil, List.length_cons, List.length_nil]
  norm_num

theorem computeStats_example_stdDev :
    (computeStats [2, 4, 4, 4, 5, 5, 7, 9]).2 = 2 := by
  rw [computeStats, if_neg (by simp)]
  simp only [statsVariance_example]
  rw [show (4 : ℝ) = 2 ^ 2 by norm_num, Real.sqrt_sq (by norm_num : (0:ℝ) ≤ 2)]

/-- C6 counterexample: `compute_stats` divides the squared deviations by `n`
(population variance), so the std-dev of the reference sample is exactly 2,
not in the claimed open interval (2.13, 2.14) that the unbiased (n−1) estimator
would give.  This matches the code's own unit test, which asserts 2.0. -/
theorem compute_stats_bessel_claim_false :
    (computeStats [2, 4, 4, 4, 5, 5, 7, 9]).2 = 2
    ∧ ¬ (2.13 < (computeStats [2, 4, 4, 4, 5, 5, 7, 9]).2
          ∧ (computeStats [2, 4, 4, 4, 5, 5, 7, 9]).2 < 2.14) := by
  refine ⟨computeStats_example_stdDev, ?_⟩
  rw [computeStats_example_stdDev]
  norm_num

/-- C6 amended: `compute_stats` returns the arithmetic mean and the *population*
standard deviation (squared deviations divided by `n`); a single sample gives
std-dev 0 and the empty list gives `(0, 0)`; there is no `1e-12` clamp — a
sample set whose variance is below `1e-12` still gets a nonzero std-dev; on the
reference sample the std-dev is exactly 2. -/
theorem compute_stats_population :
    (computeStats [2, 4, 4, 4, 5, 5, 7, 9]).2 = 2
    ∧ (∀ v : ℝ, computeStats [v] = (v, 0))
    ∧ computeStats [] = (0, 0)
    ∧ (statsVariance [0, 1e-7] < 1e-12 ∧ (computeStats [0, 1e-7]).2 ≠ 0) := by
  have hvar : statsVariance [0, 1e-7] = 2.5e-15 := by
    have hm : statsMean [0, 1e-7] = 5e-8 := by
      simp only [statsMean, List.sum_cons, List.sum_nil, List.length_cons,
        List.length_nil]
      norm_num
    simp only [statsVariance, hm, List.map_cons, List.map_nil, List.sum_cons,
      List.sum_nil, List.length_cons, List.length_nil]
    norm_num
  refine ⟨computeStats_example_stdDev, ?_, ?_, ?_, ?_⟩
  · intro v
    rw [computeStats, if_neg (by simp)]
    have hm : statsMean [v] = v := by
      simp [statsMean]
    have hv : statsVariance [v] = 0 := by
      simp [statsVariance, hm]
    rw [hm, hv, Real.sqrt_zero]
  · rw [computeStats, if_pos rfl]
  · rw [hvar]; norm_num
  · rw [computeStats, if_neg (by simp), hvar]
    simp only [ne_eq, Prod.snd]
    rw [Real.sqrt_eq_zero']
    push_neg
    norm_num

/-! ## Confidence scoring

Embeds `calculate_confidence` from `cleansh-entropy/src/scoring/mod.rs` and the
`.min(10.0)` cap applied at the call site in `cleansh-entropy/src/engine/mod.rs`.
Generic over a linear ordered field so the same definition can be run at ℚ. -/

/-- Embeds `calculate_confidence`: `(z/5).min(1.0) * z_weight + (kw ? kw_weight : 0)`. -/
def calculateConfidence {α : Type} [LinearOrderedField α] (zScore : α)
    (hasKeywordContext : Bool) (zWeight kwWeight : α) : α :=
  min (zScore / 5) 1 * zWeight + (if hasKeywordContext then kwWeight else 0)

/-- Confidence as the engine computes it: default weights `{z: 1.0, kw: 2.0}`
and the `.min(10.0)` cap from `EntropyEngine::scan`. -/
def engineConfidence {α : Type} [LinearOrderedField α] (zScore : α)
    (kw : Bool) : α :=
  min (calculateConfidence zScore kw 1 2) 10

/-- Modelled from the spec: `confidence = clamp(1.0·(z/5) + 2.0·(keyword?1:0), 0, 10)`
(C8's claimed formula, with no cap on the z term and a clamp at 0 below). -/
def specClaimConfidence {α : Type} [LinearOrderedField α] (zScore : α)
    (kw : Bool) : α :=
  min (max (1 * (zScore / 5) + 2 * (if kw then 1 else 0)) 0) 10

/-- C8 counterexample: at `z = 20` without keyword context the code yields
confidence 1 (the z term is capped via `(z/5).min(1.0)`), while the claimed
formula `clamp(z/5 + 2·kw, 0, 10)` yields 4. -/
theorem confidence_claim_false :
    engineConfidence (20 : ℝ) false = 1
    ∧ specClaimConfidence (20 : ℝ) false = 4
    ∧ engineConfidence (20 : ℝ) false ≠ specClaimConfidence (20 : ℝ) false := by
  refine ⟨?_, ?_, ?_⟩ <;>
    norm_num [engineConfidence, calculateConfidence, specClaimConfidence]

/-- C8 amended: the confidence equals `min(z/5, 1)·1 + (keyword ? 2 : 0)` capped
above at 10 (the cap never binds with the default weights, the value never
exceeds 3); there is no clamp at 0 from below, so the confidence can be
negative for strongly negative z-scores. -/
theorem confidence_formula (z : ℝ) (kw : Bool) :
    engineConfidence z kw = min (min (z / 5) 1 * 1 + (if kw then 2 else 0)) 10
    ∧ engineConfidence z kw ≤ 3
    ∧ engineConfidence (-100 : ℝ) false < 0 := by
  refine ⟨rfl, ?_, ?_⟩
  · have h1 : calculateConfidence z kw 1 2 ≤ 3 := by
      have hz : min (z / 5) 1 * 1 ≤ 1 := by
        rw [mul_one]; exact min_le_right _ _
      have hk : (if kw then (2:ℝ) else 0) ≤ 2 := by
        cases kw <;> norm_num
      calc calculateConfidence z kw 1 2
          = min (z / 5) 1 * 1 + (if kw then (2:ℝ) else 0) := rfl
        _ ≤ 1 + 2 := add_le_add hz hk
        _ = 3 := by norm_num
    calc engineConfidence z kw ≤ calculateConfidence z kw 1 2 := min_le_left _ _
      _ ≤ 3 := h1
  · norm_num [engineConfidence, calculateConfidence]

/-! ## Rule compiler

Embeds `compile_rules` from `cleansh-core/src/sanitizers/compiler.rs`.
The external regex engine (`RegexBuilder::build`) is abstracted as an oracle
`ok pattern multiline dotMatchesNewLine` deciding whether compilation of the
pattern succeeds; `MAX_PATTERN_LENGTH = 500` (bytes). -/

structure RuleM where
  name : String
  description : String
  pattern : Option String
  patternType : String
  replaceWith : String
  multiline : Bool
  dotMatchesNewLine : Bool
  programmaticValidation : Bool
  deriving Repr, DecidableEq

structure CompiledRuleM where
  regexPattern : String
  replaceWith : String
  name : String
  programmaticValidation : Bool
  deriving Repr, DecidableEq

inductive CompErr where
  | patternLengthExceeded (name : String) (len : Nat)
  | ruleCompilationError (name : String)
  deriving Repr, DecidableEq

def MAX_PATTERN_LENGTH : Nat := 500

/-- One pass of the `for rule in rules_to_compile` loop, collecting the
compiled rules and the accumulated errors in source order.  A rule whose
`pattern` is `None` is skipped (the source logs a warning and `continue`s,
regardless of `pattern_type`). -/
def compileRulesGo (ok : String → Bool → Bool → Bool) :
    List RuleM → List CompiledRuleM × List CompErr
  | [] => ([], [])
  | r :: rs =>
    let rest := compileRulesGo ok rs
    match r.pattern with
    | none => rest
    | some p =>
      if p.utf8ByteSize > MAX_PATTERN_LENGTH then
        (rest.1, CompErr.patternLengthExceeded r.name p.utf8ByteSize :: rest.2)
      else if ok p r.multiline r.dotMatchesNewLine then
        (⟨p, r.replaceWith, r.name, r.programmaticValidation⟩ :: rest.1, rest.2)
      else
        (rest.1, CompErr.ruleCompilationError r.name :: rest.2)

/-- Embeds `compile_rules`: errors are accumulated; any error makes the whole
compilation fail with the collected list, otherwise all compiled rules are
returned. -/
def compileRules (ok : String → Bool → Bool → Bool) (rules : List RuleM) :
    Except (List CompErr) (List CompiledRuleM) :=
  let g := compileRulesGo ok rules
  if g.2.isEmpty then Except.ok g.1 else Except.error g.2

/-- A rule with a missing pattern and `pattern_type = "regex"`. -/
def ruleNoPattern : RuleM :=
  ⟨"r", "", none, "regex", "[REDACTED]", false, false, false⟩

/-- C5 counterexample: a configuration with one rule whose `pattern` is missing
while `pattern_type = "regex"` compiles *successfully* to an empty rule set —
the rule is silently skipped, not reported as an error, and the compiled set
has 0 entries rather than `|rules| = 1`. -/
theorem compile_missing_pattern_not_error :
    compileRules (fun _ _ _ => true) [ruleNoPattern] = Except.ok [] := by
  rfl

theorem compileRulesGo_cons_none (ok : String → Bool → Bool → Bool) (r : RuleM)
    (rs : List RuleM) (h : r.pattern = none) :
    compileRulesGo ok (r :: rs) = compileRulesGo ok rs := by
  simp [compileRulesGo, h]

theorem compileRulesGo_cons_long (ok : String → Bool → Bool → Bool) (r : RuleM)
    (rs : List RuleM) (p : String) (h : r.pattern = some p)
    (hlen : p.utf8ByteSize > MAX_PATTERN_LENGTH) :
    compileRulesGo ok (r :: rs)
      = ((compileRulesGo ok rs).1,
          CompErr.patternLengthExceeded r.name p.utf8ByteSize
            :: (compileRulesGo ok rs).2) := by
  simp [compileRulesGo, h, hlen]

theorem compileRulesGo_cons_ok (ok : String → Bool → Bool → Bool) (r : RuleM)
    (rs : List RuleM) (p : String) (h : r.pattern = some p)
    (hlen : ¬ p.utf8ByteSize > MAX_PATTERN_LENGTH)
    (hok : ok p r.multiline r.dotMatchesNewLine = true) :
    compileRulesGo ok (r :: rs)
      = (⟨p, r.replaceWith, r.name, r.programmaticValidation⟩
          :: (compileRulesGo ok rs).1, (compileRulesGo ok rs).2) := by
  simp [compileRulesGo, h, hlen, hok]

theorem compileRulesGo_cons_bad (ok : String → Bool → Bool → Bool) (r : RuleM)
    (rs : List RuleM) (p : String) (h : r.pattern = some p)
    (hlen : ¬ p.utf8ByteSize > MAX_PATTERN_LENGTH)
    (hok : ¬ ok p r.multiline r.dotMatchesNewLine = true) :
    compileRulesGo ok (r :: rs)
      = ((compileRulesGo ok rs).1,
          CompErr.ruleCompilationError r.name :: (compileRulesGo ok rs).2) := by
  simp [compileRulesGo, h, hlen, hok]

theorem compileRulesGo_spec (ok : String → Bool → Bool → Bool) (rules : List RuleM) :
    ((compileRulesGo ok rules).2 = [] ↔
      ∀ r ∈ rules, ∀ p, r.pattern = some p →
        p.utf8ByteSize ≤ MAX_PATTERN_LENGTH ∧ ok p r.multiline r.dotMatchesNewLine = true)
    ∧ ((compileRulesGo ok rules).2 = [] →
        (compileRulesGo ok rules).1.map (fun c => c.name)
          = (rules.filter (fun r => r.pattern.isSome)).map (fun r => r.name)) := by
  induction rules with
  | nil => simp [compileRulesGo]
  | cons r rs ih =>
    obtain ⟨ih1, ih2⟩ := ih
    rcases hpat : r.pattern with _ | q
    · rw [compileRulesGo_cons_none ok r rs hpat]
      refine ⟨⟨fun h r' hr' p hp => ?_, fun h => ?_⟩, fun h => ?_⟩
      · rcases List.mem_cons.mp hr' with rfl | hmem
        · rw [hpat] at hp; exact absurd hp (by simp)
        · exact ih1.mp h r' hmem p hp
      · exact ih1.mpr (fun r' hr' p hp => h r' (List.mem_cons_of_mem _ hr') p hp)
      · rw [ih2 h]
        simp [List.filter_cons, hpat]
    · by_cases hlen : q.utf8ByteSize > MAX_PATTERN_LENGTH
      · rw [compileRulesGo_cons_long ok r rs q hpat hlen]
        refine ⟨⟨fun h => ?_, fun h => ?_⟩, fun h => ?_⟩
        · exact absurd h (by simp)
        · obtain ⟨hle, _⟩ := h r (List.mem_cons_self _ _) q hpat
          omega
        · exact absurd h (by simp)
      · by_cases hok : ok q r.multiline r.dotMatchesNewLine = true
        · rw [compileRulesGo_cons_ok ok r rs q hpat hlen hok]
          refine ⟨⟨fun h r' hr' p hp => ?_, fun h => ?_⟩, fun h => ?_⟩
          · rcases List.mem_cons.mp hr' with rfl | hmem
            · rw [hpat] at hp
              cases hp
              exact ⟨by omega, hok⟩
            · exact ih1.mp h r' hmem p hp
          · exact ih1.mpr (fun r' hr' p hp => h r' (List.mem_cons_of_mem _ hr') p hp)
          · simp only [List.map_cons, List.filter_cons, hpat, Option.isSome_some,
              if_true]
            rw [ih2 h]
        · rw [compileRulesGo_cons_bad ok r rs q hpat hlen hok]
          refine ⟨⟨fun h => ?_, fun h => ?_⟩, fun h => ?_⟩
          · exact absurd h (by simp)
          · obtain ⟨_, hko⟩ := h r (List.mem_cons_self _ _) q hpat
            exact absurd hko hok
          · exact absurd h (by simp)

/-- C5 amended: a rule whose `pattern` is missing is *skipped with a warning*
(whatever its `pattern_type`); `compile` succeeds iff every rule that *does*
carry a pattern compiles individually (byte length ≤ 500 and the regex engine
accepts it, errors being accumulated across all rules before returning); on
success the compiled set has exactly one entry per rule with a present pattern,
preserving rule names and their order. -/
theorem compile_rules_characterization (ok : String → Bool → Bool → Bool)
    (rules : List RuleM) :
    ((∃ cs, compileRules ok rules = Except.ok cs) ↔
      ∀ r ∈ rules, ∀ p, r.pattern = some p →
        p.utf8ByteSize ≤ MAX_PATTERN_LENGTH ∧ ok p r.multiline r.dotMatchesNewLine = true)
    ∧ (∀ cs, compileRules ok rules = Except.ok cs →
        cs.map (fun c => c.name)
          = (rules.filter (fun r => r.pattern.isSome)).map (fun r => r.name)) := by
  obtain ⟨h1, h2⟩ := compileRulesGo_spec ok rules
  constructor
  · constructor
    · rintro ⟨cs, hcs⟩
      apply h1.mp
      by_cases hempty : (compileRulesGo ok rules).2.isEmpty
      · exact List.isEmpty_iff.mp hempty
      · simp only [compileRules, hempty, if_false] at hcs
        exact absurd hcs (by simp)
    · intro h
      refine ⟨(compileRulesGo ok rules).1, ?_⟩
      simp only [compileRules, h1.mpr h]
      simp
  · intro cs hcs
    by_cases hempty : (compileRulesGo ok rules).2.isEmpty
    · have hnil : (compileRulesGo ok rules).2 = [] := List.isEmpty_iff.mp hempty
      simp only [compileRules, hempty, if_true] at hcs
      cases hcs
      exact h2 hnil
    · simp only [compileRules, hempty, if_false] at hcs
      exact absurd hcs (by simp)

/-- Witness for C5's amended characterization at a concrete configuration. -/
theorem compile_rules_characterization_witness :
    ([(⟨"abc", "[REDACTED]", "r2", false⟩ : CompiledRuleM)].map (fun c => c.name))
      = (([ruleNoPattern,
            ⟨"r2", "", some "abc", "regex", "[REDACTED]", false, false, false⟩].filter
              (fun r => r.pattern.isSome)).map (fun r => r.name)) :=
  (compile_rules_characterization (fun _ _ _ => true)
      [ruleNoPattern, ⟨"r2", "", some "abc", "regex", "[REDACTED]", false, false, false⟩]).2
    [⟨"abc", "[REDACTED]", "r2", false⟩] (by rfl)

/-! ## ANSI stripping and the stripped-to-original index mapper

Embeds `StrippedIndexMapper` (identical in
`cleansh-core/src/engines/regex_engine.rs` and
`cleansh-core/src/engines/entropy_engine.rs`).  Strings are lists of chars;
byte offsets are recovered through `Char.utf8Size`, matching Rust
`char_indices`. -/

def escChar : Char := Char.ofNat 27

/-- CSI sequences end at a final byte in `0x40 ..= 0x7E`. -/
def isCsiFinal (c : Char) : Bool := decide (0x40 ≤ c.toNat ∧ c.toNat ≤ 0x7E)

/-- Parser states of the ANSI stripping state machine: normal text, just after
an ESC, or inside a CSI parameter run. -/
inductive AnsiSt where
  | txt | esc | csi
  deriving Repr, DecidableEq

/-- Modelled from the spec: the `strip_ansi_escapes::strip` dependency is not
part of this repository's sources; per §4.7/§6 of the spec, ANSI CSI/SGR escape
sequences (`ESC [ params final`, or `ESC` plus one char for simple escapes) are
removed while every other character passes through. -/
def stripAnsiGo : AnsiSt → List Char → List Char
  | _, [] => []
  | AnsiSt.txt, c :: rest =>
    if c = escChar then stripAnsiGo AnsiSt.esc rest
    else c :: stripAnsiGo AnsiSt.txt rest
  | AnsiSt.esc, c :: rest =>
    if c = '[' then stripAnsiGo AnsiSt.csi rest else stripAnsiGo AnsiSt.txt rest
  | AnsiSt.csi, c :: rest =>
    if isCsiFinal c then stripAnsiGo AnsiSt.txt rest else stripAnsiGo AnsiSt.csi rest

def stripAnsi (l : List Char) : List Char := stripAnsiGo AnsiSt.txt l

theorem stripAnsi_no_esc (l : List Char) (h : escChar ∉ l) : stripAnsi l = l := by
  induction l with
  | nil => rfl
  | cons c rest ih =>
    have h1 : ¬ escChar = c ∧ escChar ∉ rest := by
      simpa [List.mem_cons, not_or] using h
    show stripAnsiGo AnsiSt.txt (c :: rest) = c :: rest
    rw [stripAnsiGo, if_neg (fun hc => h1.1 hc.symm)]
    exact congrArg (c :: ·) (ih h1.2)

/-- Rust `char_indices` starting at byte offset `n`. -/
def charIndicesFrom (n : Nat) : List Char → List (Nat × Char)
  | [] => []
  | c :: cs => (n, c) :: charIndicesFrom (n + c.utf8Size) cs

/-- UTF-8 byte length of a char list (`str::len`). -/
def byteLen (l : List Char) : Nat := (l.map Char.utf8Size).sum

/-- The inner `while let Some((orig_index, orig_char))` loop: advance through
the original char-indices until the current stripped char matches, returning
its byte offset and the remaining iterator. -/
def seekChar (c : Char) : List (Nat × Char) → Option (Nat × List (Nat × Char))
  | [] => none
  | (i, d) :: rest => if d = c then some (i, rest) else seekChar c rest

/-- The outer `for stripped_char in stripped_chars` loop of
`StrippedIndexMapper::new`: one table entry per *stripped char*. -/
def buildMapGo : List Char → List (Nat × Char) → List Nat
  | [], _ => []
  | c :: cs, orig =>
    match seekChar c orig with
    | some (i, rest) => i :: buildMapGo cs rest
    | none => []

/-- Embeds `StrippedIndexMapper::new`: walk stripped chars against original
char-indices, then push `original.len()` (total byte length) as sentinel. -/
def buildMap (original : List Char) : List Nat :=
  buildMapGo (stripAnsi original) (charIndicesFrom 0 original) ++ [byteLen original]

/-- Embeds `StrippedIndexMapper::map_index`: clamp to the table and look up. -/
def mapIndex (m : List Nat) (i : Nat) : Nat := m.getD (min i (m.length - 1)) 0

theorem seekChar_head (c : Char) (i : Nat) (rest : List (Nat × Char)) :
    seekChar c ((i, c) :: rest) = some (i, rest) := by
  simp [seekChar]

theorem buildMapGo_lockstep (l : List Char) :
    ∀ n, buildMapGo l (charIndicesFrom n l) = (charIndicesFrom n l).map Prod.fst := by
  induction l with
  | nil => intro n; rfl
  | cons c cs ih =>
    intro n
    simp only [charIndicesFrom, buildMapGo, seekChar_head, List.map_cons]
    rw [ih (n + c.utf8Size)]

theorem offsets_getD (l : List Char) :
    ∀ (n i : Nat), i ≤ l.length →
      (((charIndicesFrom n l).map Prod.fst) ++ [n + byteLen l]).getD i 0
        = n + byteLen (l.take i) := by
  induction l with
  | nil =>
    intro n i hi
    have hz : i = 0 := by simpa using hi
    subst hz
    simp [charIndicesFrom, byteLen]
  | cons c cs ih =>
    intro n i hi
    cases i with
    | zero => simp [charIndicesFrom, byteLen]
    | succ j =>
      simp only [charIndicesFrom, List.map_cons, List.cons_append, List.getD_cons_succ]
      have hj : j ≤ cs.length := by simpa using hi
      have := ih (n + c.utf8Size) j hj
      rw [show n + c.utf8Size + byteLen cs = n + byteLen (c :: cs) by
        simp [byteLen]; ring] at this
      rw [this]
      simp [byteLen]
      ring

/-- C1 counterexample: on the single-character, escape-free input `"é"` (two
UTF-8 bytes) the mapper's table is `[0, 2]` — one entry per *char*, not per
byte — so its length is 2, not `|stripped| + 1 = 3`, and `map_index(1) = 2 ≠ 1`,
refuting the identity claim at byte index 1. -/
theorem index_mapper_byte_claim_false :
    buildMap [Char.ofNat 0xE9] = [0, 2]
    ∧ mapIndex (buildMap [Char.ofNat 0xE9]) 1 = 2
    ∧ (buildMap [Char.ofNat 0xE9]).length ≠ byteLen [Char.ofNat 0xE9] + 1 := by
  refine ⟨?_, ?_, ?_⟩ <;> decide

/-- C1 amended: the mapper's table has one entry per stripped *character* plus
a sentinel (length `#chars(stripped) + 1`, with the last entry `|original|` in
bytes); for inputs without ANSI escapes, `table[i]` is the byte offset of the
i-th character, and when the input is pure ASCII (one-byte chars) `map_index`
is the identity on `[0, |S|]`. -/
theorem index_mapper_no_ansi (S : List Char) (h : escChar ∉ S) :
    buildMap S = (charIndicesFrom 0 S).map Prod.fst ++ [byteLen S]
    ∧ (buildMap S).length = S.length + 1
    ∧ (∀ i, i ≤ S.length → (buildMap S).getD i 0 = byteLen (S.take i))
    ∧ ((∀ c ∈ S, c.utf8Size = 1) →
        ∀ i, i ≤ byteLen S → mapIndex (buildMap S) i = i) := by
  have hform : buildMap S = (charIndicesFrom 0 S).map Prod.fst ++ [byteLen S] := by
    rw [buildMap, stripAnsi_no_esc S h, buildMapGo_lockstep]
  have hindices_len : ∀ (l : List Char) (n : Nat),
      (charIndicesFrom n l).length = l.length := by
    intro l
    induction l with
    | nil => intro n; rfl
    | cons c cs ih => intro n; simp [charIndicesFrom, ih]
  have hlen : (buildMap S).length = S.length + 1 := by
    rw [hform]; simp [hindices_len]
  have hgetD : ∀ i, i ≤ S.length → (buildMap S).getD i 0 = byteLen (S.take i) := by
    intro i hi
    rw [hform]
    have := offsets_getD S 0 i hi
    simpa using this
  refine ⟨hform, hlen, hgetD, ?_⟩
  intro hascii i hi
  have hbl : byteLen S = S.length := by
    rw [byteLen]
    rw [List.map_congr_left (fun c hc => hascii c hc)]
    simp
  have hi' : i ≤ S.length := by omega
  have htake : byteLen (S.take i) = i := by
    rw [byteLen]
    have : ∀ c ∈ S.take i, c.utf8Size = 1 :=
      fun c hc => hascii c (List.mem_of_mem_take hc)
    rw [List.map_congr_left (fun c hc => this c hc)]
    simp
    omega
  rw [mapIndex, hlen]
  rw [show S.length + 1 - 1 = S.length by omega]
  rw [min_eq_left hi']
  rw [hgetD i hi', htake]

/-- Witness for C1's amended theorem on a concrete ASCII input. -/
theorem index_mapper_no_ansi_witness :
    mapIndex (buildMap ['a', 'b']) 1 = 1 :=
  (index_mapper_no_ansi ['a', 'b'] (by decide)).2.2.2 (by decide) 1 (by decide)

/-! ## Capture-group substitution

Embeds the replacement-building loop of `RegexEngine::find_matches`
(`cleansh-core/src/engines/regex_engine.rs`): for `i in 1..caps.len()`, when
group `i` participated, `replacement = replacement.replace("$i", caps[i])`.
Rust `str::replace` replaces every non-overlapping occurrence, leftmost first;
it is modelled with explicit fuel (one unit per loop step, `s.length` always
suffices for a nonempty pattern). -/

def replaceAllGo (pat rep : List Char) : Nat → List Char → List Char
  | 0, s => s
  | _ + 1, [] => []
  | fuel + 1, c :: rest =>
    if pat.isPrefixOf (c :: rest) then
      rep ++ replaceAllGo pat rep fuel ((c :: rest).drop pat.length)
    else
      c :: replaceAllGo pat rep fuel rest

/-- Rust `str::replace pat → rep` (for the nonempty patterns `"$k"` used here). -/
def replaceAll (pat rep s : List Char) : List Char := replaceAllGo pat rep s.length s

def digitChar (d : Nat) : Char := Char.ofNat (48 + d)

def natDigitsGo : Nat → Nat → List Char
  | 0, _ => []
  | fuel + 1, n =>
    if n < 10 then [digitChar n] else natDigitsGo fuel (n / 10) ++ [digitChar (n % 10)]

/-- Decimal rendering of a natural, as in Rust `format!("{}", i)`. -/
def natDigits (n : Nat) : List Char := natDigitsGo (n + 1) n

/-- Renders `format!("${}", i)`: the textual capture-group reference. -/
def dollarRef (i : Nat) : List Char := '$' :: natDigits i

/-- The `for i in 1..caps.len()` substitution loop over a list of reference
indices; a participating group (`Some`) triggers a textual replace, a
non-participating group (`None`) is skipped. -/
def substRefs (caps : List (Option (List Char))) : List Nat → List Char → List Char
  | [], s => s
  | i :: rest, s =>
    substRefs caps rest
      (match caps.getD i none with
        | some t => replaceAll (dollarRef i) t s
        | none => s)

/-- Builds the final replacement text from `replace_with` and the capture list
(`caps[0]` is the whole match, per the regex crate): the loop runs over the
index range `1 .. caps.len()`. -/
def buildReplacement (replaceWith : List Char) (caps : List (Option (List Char))) :
    List Char :=
  substRefs caps (List.range' 1 (caps.length - 1)) replaceWith

/-- Substring occurrence test. -/
def occursIn (q : List Char) : List Char → Bool
  | [] => decide (q = [])
  | c :: rest => q.isPrefixOf (c :: rest) || occursIn q rest

/-- C10 counterexample: `replace_with = "$10"` with eleven capture slots where
group 1 participates (text `"X"`) and group 10 exists but does not participate.
The loop's `replace("$1", "X")` consumes the prefix of `"$10"`, producing
`"X0"`: the literal `"$10"` does *not* remain in the sanitized string even
though group 10 did not participate. -/
theorem capture_ref_claim_false :
    buildReplacement ['$', '1', '0']
        ([some ['a'], some ['X']] ++ List.replicate 9 none)
      = ['X', '0']
    ∧ ([some ['a'], some ['X']] ++ List.replicate 9 (none : Option (List Char))).length
      = 11
    ∧ ([some ['a'], some ['X']] ++ List.replicate 9 (none : Option (List Char))).getD
        10 none = none
    ∧ occursIn ['$', '1', '0']
        (buildReplacement ['$', '1', '0']
          ([some ['a'], some ['X']] ++ List.replicate 9 none)) = false := by
  refine ⟨?_, ?_, ?_, ?_⟩ <;> decide

theorem occursIn_append_right (q t s : List Char) (h : occursIn q s = true) :
    occursIn q (t ++ s) = true := by
  induction t with
  | nil => simpa using h
  | cons c t ih =>
    simp only [List.cons_append, occursIn, Bool.or_eq_true]
    right; exact ih

theorem occursIn_cons (q : List Char) (c : Char) (s : List Char)
    (h : occursIn q s = true) : occursIn q (c :: s) = true :=
  occursIn_append_right q [c] s h

theorem occursIn_of_isPrefixOf (q s : List Char) (h : q.isPrefixOf s = true) :
    occursIn q s = true := by
  cases s with
  | nil =>
    cases q with
    | nil => decide
    | cons a as => simp [List.isPrefixOf] at h
  | cons c rest =>
    simp only [occursIn, Bool.or_eq_true]
    left; exact h

theorem occursIn_iff_exists (q s : List Char) :
    occursIn q s = true ↔ ∃ m, q.isPrefixOf (s.drop m) = true := by
  induction s with
  | nil =>
    constructor
    · intro h
      cases q with
      | nil => exact ⟨0, by decide⟩
      | cons a as => simp [occursIn] at h
    · rintro ⟨m, hm⟩
      simp only [List.drop_nil] at hm
      cases q with
      | nil => decide
      | cons a as => simp [List.isPrefixOf] at hm
  | cons c rest ih =>
    constructor
    · intro h
      simp only [occursIn, Bool.or_eq_true] at h
      rcases h with h | h
      · exact ⟨0, by simpa using h⟩
      · obtain ⟨m, hm⟩ := ih.mp h
        exact ⟨m + 1, by simpa using hm⟩
    · rintro ⟨m, hm⟩
      cases m with
      | zero =>
        simp only [List.drop_zero] at hm
        simp only [occursIn, Bool.or_eq_true]
        left; exact hm
      | succ m =>
        simp only [List.drop_succ_cons] at hm
        exact occursIn_cons q c rest (ih.mpr ⟨m, hm⟩)

theorem replaceAllGo_clean_prefix (pt rep : List Char) (r : List Char)
    (hr : '$' ∉ r) :
    ∀ (fuel : Nat) (s : List Char), r.isPrefixOf s = true →
      r.isPrefixOf (replaceAllGo ('$' :: pt) rep fuel s) = true := by
  induction r with
  | nil => intro fuel s _; simp [List.isPrefixOf]
  | cons d rt ih =>
    intro fuel s hpre
    cases s with
    | nil => simp [List.isPrefixOf] at hpre
    | cons c s' =>
      simp only [List.isPrefixOf, Bool.and_eq_true, beq_iff_eq] at hpre
      obtain ⟨rfl, hpre'⟩ := hpre
      have hd : ¬ d = '$' := fun hc => hr (hc ▸ List.mem_cons_self d rt)
      cases fuel with
      | zero =>
        simp [replaceAllGo, List.isPrefixOf, hpre']
      | succ fuel =>
        rw [replaceAllGo, if_neg (by
          simp only [List.isPrefixOf, Bool.and_eq_true, beq_iff_eq]
          rintro ⟨h1, -⟩
          exact hd h1.symm)]
        simp only [List.isPrefixOf, Bool.and_eq_true, beq_iff_eq]
        refine ⟨by trivial, ih (fun hm => hr (List.mem_cons_of_mem d hm)) fuel s' hpre'⟩

theorem isPrefixOf_trans_compat (p q s : List Char)
    (hp : p.isPrefixOf s = true) (hq : q.isPrefixOf s = true) :
    p.isPrefixOf q = true ∨ q.isPrefixOf p = true := by
  rw [List.isPrefixOf_iff_prefix] at hp hq ⊢
  rw [List.isPrefixOf_iff_prefix]
  exact List.prefix_or_prefix_of_prefix hp hq

theorem occursIn_replaceAllGo (pt qt rep : List Char)
    (hpt : '$' ∉ pt) (hqt : '$' ∉ qt)
    (hnp1 : ¬ pt.isPrefixOf qt = true) (hnp2 : ¬ qt.isPrefixOf pt = true) :
    ∀ (fuel : Nat) (s : List Char), s.length ≤ fuel →
      occursIn ('$' :: qt) s = true →
      occursIn ('$' :: qt) (replaceAllGo ('$' :: pt) rep fuel s) = true := by
  intro fuel
  induction fuel with
  | zero => intro s _ h; simpa [replaceAllGo] using h
  | succ fuel ih =>
    intro s hlen hocc
    cases s with
    | nil => simp [occursIn] at hocc
    | cons c rest =>
      by_cases hpre : ('$' :: pt).isPrefixOf (c :: rest) = true
      · rw [replaceAllGo, if_pos hpre]
        obtain ⟨m, hm⟩ := (occursIn_iff_exists _ _).mp hocc
        have hplen : ('$' :: pt).length ≤ (c :: rest).length := by
          have := List.IsPrefix.length_le (List.isPrefixOf_iff_prefix.mp hpre)
          exact this
        rcases Nat.lt_or_ge m ('$' :: pt).length with hmlt | hmge
        · -- the q occurrence would start inside the replaced p region
          exfalso
          obtain ⟨t, ht⟩ := List.isPrefixOf_iff_prefix.mp hpre
          cases m with
          | zero =>
            simp only [List.drop_zero] at hm
            rcases isPrefixOf_trans_compat _ _ _ hpre hm with h | h
            · simp only [List.isPrefixOf, Bool.and_eq_true, beq_iff_eq] at h
              exact hnp1 h.2
            · simp only [List.isPrefixOf, Bool.and_eq_true, beq_iff_eq] at h
              exact hnp2 h.2
          | succ m' =>
            -- the char at position m in the original is inside pt, and equals '$'
            have hdrop : (c :: rest).drop (m' + 1)
                = ('$' :: pt).drop (m' + 1) ++ t := by
              rw [← ht, List.drop_append_of_le_length (by omega)]
            rw [hdrop] at hm
            have hm'lt : m' < pt.length := by
              simp only [List.length_cons] at hmlt; omega
            rw [List.drop_eq_getElem_cons (l := '$' :: pt) (by simpa using hmlt)] at hm
            simp only [List.cons_append, List.isPrefixOf, Bool.and_eq_true,
              beq_iff_eq] at hm
            have hget : ('$' :: pt)[m' + 1] = pt[m'] := by
              simp
            have : pt[m'] = '$' := by
              rw [← hget]
              exact hm.1.symm
            exact hpt (this ▸ List.getElem_mem hm'lt)
        · -- the occurrence lies entirely after the replaced region
          have hocc' : occursIn ('$' :: qt) ((c :: rest).drop ('$' :: pt).length)
              = true := by
            apply (occursIn_iff_exists _ _).mpr
            refine ⟨m - ('$' :: pt).length, ?_⟩
            rw [List.drop_drop]
            rw [show ('$' :: pt).length + (m - ('$' :: pt).length) = m by omega]
            exact hm
          apply occursIn_append_right
          apply ih _ _ hocc'
          simp only [List.length_drop, List.length_cons] at *
          omega
      · rw [replaceAllGo, if_neg hpre]
        simp only [occursIn, Bool.or_eq_true] at hocc
        rcases hocc with hocc | hocc
        · -- q is a prefix of the current position; its tail is '$'-free so the
          -- recursive pass keeps it a prefix
          simp only [List.isPrefixOf, Bool.and_eq_true, beq_iff_eq] at hocc
          obtain ⟨rfl, htl⟩ := hocc
          apply occursIn_of_isPrefixOf
          simp only [List.isPrefixOf, Bool.and_eq_true, beq_iff_eq]
          refine ⟨by trivial, replaceAllGo_clean_prefix pt rep qt hqt fuel rest htl⟩
        · refine occursIn_cons _ _ _ (ih rest ?_ hocc)
          simp only [List.length_cons] at hlen
          omega

theorem dollar_not_in_natDigitsGo : ∀ (fuel n : Nat), '$' ∉ natDigitsGo fuel n := by
  intro fuel
  induction fuel with
  | zero => intro n; simp [natDigitsGo]
  | succ fuel ih =>
    intro n
    rw [natDigitsGo]
    by_cases h : n < 10
    · rw [if_pos h]
      interval_cases n <;> decide
    · rw [if_neg h]
      intro hmem
      rcases List.mem_append.mp hmem with hm | hm
      · exact ih (n / 10) hm
      · rw [List.mem_singleton] at hm
        have h10 : n % 10 < 10 := Nat.mod_lt n (by norm_num)
        revert hm
        generalize n % 10 = m at h10
        interval_cases m <;> decide

theorem dollar_not_in_natDigits (n : Nat) : '$' ∉ natDigits n :=
  dollar_not_in_natDigitsGo (n + 1) n

theorem substRefs_occurs (caps : List (Option (List Char))) (k : Nat)
    (idxs : List Nat)
    (hpf : ∀ i ∈ idxs, caps.getD i none ≠ none →
      ¬ (natDigits i).isPrefixOf (natDigits k) = true
      ∧ ¬ (natDigits k).isPrefixOf (natDigits i) = true) :
    ∀ s, occursIn (dollarRef k) s = true →
      occursIn (dollarRef k) (substRefs caps idxs s) = true := by
  induction idxs with
  | nil => intro s h; simpa [substRefs] using h
  | cons i rest ih =>
    intro s h
    rw [substRefs]
    rcases hcap : caps.getD i none with _ | t
    · exact ih (fun j hj => hpf j (List.mem_cons_of_mem _ hj)) s h
    · apply ih (fun j hj => hpf j (List.mem_cons_of_mem _ hj))
      obtain ⟨h1, h2⟩ := hpf i (List.mem_cons_self _ _) (by rw [hcap]; simp)
      exact occursIn_replaceAllGo (natDigits i) (natDigits k) t
        (dollar_not_in_natDigits i) (dollar_not_in_natDigits k) h1 h2
        s.length s (le_refl _) h

/-- C10 amended: iteration `i` of the substitution loop performs a textual
replace of `$i` only when group `i` participated; a reference `$k` for a
*non-participating* group `k` remains verbatim in the built replacement,
provided no participating reference index and `k` have decimal renderings where
one is a prefix of the other (always true when the pattern has at most nine
capture groups, i.e. all references are single-digit). -/
theorem capture_ref_persists (replaceWith : List Char)
    (caps : List (Option (List Char))) (k : Nat)
    (_hk : caps.getD k none = none)
    (hpf : ∀ i, i < caps.length → 1 ≤ i → caps.getD i none ≠ none →
      ¬ (natDigits i).isPrefixOf (natDigits k) = true
      ∧ ¬ (natDigits k).isPrefixOf (natDigits i) = true)
    (hocc : occursIn (dollarRef k) replaceWith = true) :
    occursIn (dollarRef k) (buildReplacement replaceWith caps) = true := by
  rw [buildReplacement]
  apply substRefs_occurs caps k _ _ replaceWith hocc
  intro i hi hcap
  rw [List.mem_range'] at hi
  exact hpf i (by omega) (by omega) hcap

/-- Witness for C10's amended persistence theorem: `replace_with = "$2"`, group
1 participates with text `"X"`, group 2 does not — `"$2"` survives. -/
theorem capture_ref_persists_witness :
    occursIn (dollarRef 2)
      (buildReplacement ['$', '2'] [some ['a'], some ['X'], none]) = true :=
  capture_ref_persists ['$', '2'] [some ['a'], some ['X'], none] 2
    (by decide)
    (by decide)
    (by decide)


/-! ## Entropy pipeline — byte-level primitives

Bytes are naturals; a byte string is a `List Nat`.  `slice l s e` is Rust
`&l[s..e]` (half-open byte range). -/

def slice (l : List Nat) (s e : Nat) : List Nat := (l.drop s).take (e - s)

def isAsciiWhitespaceB (b : Nat) : Bool :=
  decide (b = 32) || decide (b = 9) || decide (b = 10) || decide (b = 12)
    || decide (b = 13)

def isAsciiAlnumB (b : Nat) : Bool :=
  (decide (48 ≤ b) && decide (b ≤ 57)) || (decide (65 ≤ b) && decide (b ≤ 90))
    || (decide (97 ≤ b) && decide (b ≤ 122))

def isAsciiLowerB (b : Nat) : Bool := decide (97 ≤ b) && decide (b ≤ 122)

/-- Rust `slice::chunks(step)`: full chunks plus a shorter last chunk; defined
with fuel (`l.length` suffices whenever `step ≥ 1`). -/
def chunksGo (step : Nat) : Nat → List Nat → List (List Nat)
  | 0, _ => []
  | _, [] => []
  | fuel + 1, l => l.take step :: chunksGo step fuel (l.drop step)

def chunks (step : Nat) (l : List Nat) : List (List Nat) := chunksGo step l.length l

/-! ### Context scanner

Embeds `ContextScanner` from `cleansh-entropy/src/context/mod.rs`: the fixed
keyword set, substring matches inside the preceding window, and the
word-boundary checks.  The Aho-Corasick automaton is modelled as "some
occurrence of some keyword inside the window passes both boundary checks". -/

def asciiBytes (s : String) : List Nat := s.toList.map Char.toNat

def contextKeywords : List (List Nat) :=
  [asciiBytes "key", asciiBytes "api", asciiBytes "token", asciiBytes "secret",
   asciiBytes "password", asciiBytes "passwd", asciiBytes "pwd", asciiBytes "auth",
   asciiBytes "bearer", asciiBytes "access", asciiBytes "id",
   asciiBytes "credential", asciiBytes "private", asciiBytes "client",
   asciiBytes "aws", asciiBytes "gcp", asciiBytes "azure", asciiBytes "stripe",
   asciiBytes "ghp"]

/-- A keyword occurrence at offset `s` of the window passing the word-boundary
checks (`prefix_ok`/`suffix_ok`). -/
def kwMatchAt (window pat : List Nat) (s : Nat) : Bool :=
  decide ((window.drop s).take pat.length = pat)
    && (decide (s = 0) || !isAsciiAlnumB (window.getD (s - 1) 0))
    && (decide (s + pat.length = window.length)
        || !isAsciiAlnumB (window.getD (s + pat.length) 0))

def kwWindowHit (window : List Nat) : Bool :=
  contextKeywords.any (fun pat =>
    (List.range (window.length + 1)).any (fun s => kwMatchAt window pat s))

/-- Embeds `ContextScanner::scan_preceding_context`: scan
`text[token_start - window .. token_start)` (saturating) for a
boundary-checked keyword; `token_start = 0` yields false. -/
def scanPrecedingContext (text : List Nat) (tokenStart window : Nat) : Bool :=
  if tokenStart = 0 then false
  else kwWindowHit ((text.take tokenStart).drop (tokenStart - window))

/-! ### Baseline sampling of the anomaly scanner

Embeds the chunk-sampling loop of `scan_token_against_context`
(`cleansh-entropy/src/scanner/mod.rs`): chunk step is `window_chunk_size` when
positive, else the token length (`AnomalyScannerConfig::default` has
`window_chunk_size = 0`); a chunk is sampled when its length is at least half
the token length; at most 128 samples. -/

def sampleLoopGo (tokenLen : Nat) : Nat → List (List Nat) → List (List Nat)
  | _, [] => []
  | count, c :: rest =>
    if 128 ≤ count then []
    else if tokenLen / 2 ≤ c.length then c :: sampleLoopGo tokenLen (count + 1) rest
    else sampleLoopGo tokenLen count rest

/-- The baseline chunks actually sampled by `scan_token_against_context`. -/
def scannerSamples (token ctx : List Nat) (chunkSize : Nat) : List (List Nat) :=
  let step := if 0 < chunkSize then chunkSize else token.length
  sampleLoopGo token.length 0 (chunks step ctx)

theorem sampleLoopGo_eq (tokenLen : Nat) (cs : List (List Nat)) :
    ∀ count, sampleLoopGo tokenLen count cs
      = (cs.filter (fun c => decide (tokenLen / 2 ≤ c.length))).take (128 - count) := by
  induction cs with
  | nil => intro count; simp [sampleLoopGo]
  | cons c rest ih =>
    intro count
    rw [sampleLoopGo]
    by_cases hcap : 128 ≤ count
    · rw [if_pos hcap, show 128 - count = 0 by omega]
      simp
    · rw [if_neg hcap]
      by_cases hkeep : tokenLen / 2 ≤ c.length
      · rw [if_pos hkeep, List.filter_cons, if_pos (by simpa using hkeep)]
        rw [show 128 - count = (128 - (count + 1)) + 1 by omega]
        rw [List.take_succ_cons, ih (count + 1)]
      · rw [if_neg hkeep, List.filter_cons, if_neg (by simpa using hkeep)]
        exact ih count

/-! ### Shannon entropy kernel

Embeds `calculate_shannon_entropy` from `cleansh-entropy/src/entropy/mod.rs`
over real numbers: byte-histogram entropy `−Σ p·log2 p`, 0 on empty input. -/

noncomputable def shannonEntropy (data : List Nat) : ℝ :=
  if data.length = 0 then 0
  else -(∑ b ∈ Finset.range 256,
      (if 0 < data.count b then
        ((data.count b : ℝ) / data.length) * Real.logb 2 ((data.count b : ℝ) / data.length)
      else 0))

/-! ### Anomaly z-score and engine hot decision

Embeds the z-score of `scan_token_against_context` (the 3-parameter function
defined in `cleansh-entropy/src/scanner/mod.rs`; the engine's call site names a
fourth candidate-position argument which that definition does not have and
which does not influence the baseline) and the confidence threshold test of
`EntropyEngine::scan`.  `H` abstracts the entropy function; the official
semantics instantiates `H := shannonEntropy`. -/

noncomputable def anomalyZ (H : List Nat → ℝ) (token ctx : List Nat)
    (chunkSize : Nat) : ℝ :=
  if token.length = 0 ∨ ctx.length < token.length then 0
  else if 0 < (computeStats ((scannerSamples token ctx chunkSize).map H)).2 then
    (H token - (computeStats ((scannerSamples token ctx chunkSize).map H)).1)
      / (computeStats ((scannerSamples token ctx chunkSize).map H)).2
  else if (computeStats ((scannerSamples token ctx chunkSize).map H)).1 < H token
    then 100
  else 0

/-- Confidence of the window at `i` as computed in `EntropyEngine::scan`:
`calculate_confidence(z, kw, default weights).min(10.0)` with the keyword
context looked up 48 bytes back. -/
noncomputable def engineWindowConf (H : List Nat → ℝ) (text : List Nat)
    (W i : Nat) : ℝ :=
  min (calculateConfidence (anomalyZ H (slice text i (i + W)) text 0)
    (scanPrecedingContext text i 48) 1 2) 10

/-- The locator's per-position decision `confidence >= threshold`. -/
noncomputable def engineHot (H : List Nat → ℝ) (thr : ℝ) (text : List Nat)
    (W i : Nat) : Bool :=
  decide (thr ≤ engineWindowConf H text W i)

/-! ### Sliding-window locator, consolidation, surgical extraction

Embeds `EntropyEngine::scan` from `cleansh-entropy/src/engine/mod.rs`.  The
loop is parameterized by the per-position hot decision (which bundles the
confidence computation above); it advances by `W/2` after a hit and by 1
otherwise, with fuel (`len + 1` suffices for `W ≥ 2`).  `EntropyMatch`'s
`confidence`/`entropy` fields never influence which intervals are produced
downstream (confidence is only compared against the threshold at creation,
captured by `hot`), so intervals are `(start, end)` pairs. -/

def scanLoopB (hot : Nat → Bool) (len W : Nat) : Nat → Nat → List (Nat × Nat)
  | 0, _ => []
  | fuel + 1, i =>
    if i + W ≤ len then
      if hot i then (i, i + W) :: scanLoopB hot len W fuel (i + W / 2)
      else scanLoopB hot len W fuel (i + 1)
    else []

/-- Embeds `EntropyEngine::consolidate_matches`: merge a sorted run, extending the
current end to the next end when the next start does not exceed it. -/
def consolidateGo (cs ce : Nat) : List (Nat × Nat) → List (Nat × Nat)
  | [] => [(cs, ce)]
  | (s, e) :: rest =>
    if s ≤ ce then consolidateGo cs e rest
    else (cs, ce) :: consolidateGo s e rest

def consolidateIv : List (Nat × Nat) → List (Nat × Nat)
  | [] => []
  | (s, e) :: rest => consolidateGo s e rest

/-- Tests for `':'` or `'='`. -/
def isDelimByte (b : Nat) : Bool := decide (b = 58) || decide (b = 61)

/-- Computes `iter().rposition` of a label delimiter. -/
def rposDelim : List Nat → Option Nat
  | [] => none
  | b :: rest =>
    match rposDelim rest with
    | some j => some (j + 1)
    | none => if isDelimByte b then some 0 else none

/-- Semantic anchor (step 1, identical in both extraction routines): snap the
start past the last `':'`/`'='` of the interval when that leaves it nonempty. -/
def anchorStart (text : List Nat) (s e : Nat) : Nat :=
  match rposDelim (slice text s e) with
  | some pos => if s + pos + 1 < e then s + pos + 1 else s
  | none => s

/-- Leading-trim set (step 2, identical in both): whitespace and
`" ' [ { < ( - _`. -/
def isLeadTrimByte (b : Nat) : Bool :=
  isAsciiWhitespaceB b || decide (b = 34) || decide (b = 39) || decide (b = 91)
    || decide (b = 123) || decide (b = 60) || decide (b = 40) || decide (b = 45)
    || decide (b = 95)

def leadTrimGo (text : List Nat) : Nat → Nat → Nat
  | 0, s => s
  | fuel + 1, s =>
    if isLeadTrimByte (text.getD s 0) then leadTrimGo text fuel (s + 1) else s

def leadTrim (text : List Nat) (s e : Nat) : Nat := leadTrimGo text (e - s) s

/-- Low-level tail-trim set (`extract_secret_core`, step 3 in
`cleansh-entropy`): underscore, lowercase letters, whitespace and
`. , ! ? ] } > )`. -/
def isLowTailByte (b : Nat) : Bool :=
  decide (b = 95) || isAsciiLowerB b || isAsciiWhitespaceB b || decide (b = 46)
    || decide (b = 44) || decide (b = 33) || decide (b = 63) || decide (b = 93)
    || decide (b = 125) || decide (b = 62) || decide (b = 41)

def lowTailGo (text : List Nat) (s : Nat) : Nat → Nat → Nat
  | 0, e => e
  | fuel + 1, e =>
    if decide (s + 2 < e) && isLowTailByte (text.getD (e - 1) 0) then
      lowTailGo text s fuel (e - 1)
    else e

def lowTailTrim (text : List Nat) (s e : Nat) : Nat := lowTailGo text s (e - s) e

/-- Embeds `EntropyEngine::extract_secret_core` (cleansh-entropy): anchor, leading
trim, aggressive tail trim — *no* look-ahead stitcher. -/
def extractLow (text : List Nat) (iv : Nat × Nat) : Nat × Nat :=
  let s1 := anchorStart text iv.1 iv.2
  let s2 := leadTrim text s1 iv.2
  (s2, lowTailTrim text s2 iv.2)

/-- Embeds `EntropyEngine::scan` (cleansh-entropy): locator, consolidation, surgical
extraction, then the `(end − start) ≥ 6` discard. -/
noncomputable def entropyScan (H : List Nat → ℝ) (thr : ℝ) (W : Nat)
    (text : List Nat) : List (Nat × Nat) :=
  if text.length < W then []
  else
    ((consolidateIv (scanLoopB (engineHot H thr text W) text.length W
        (text.length + 1) 0)).map (extractLow text)).filter
      (fun iv => decide (6 ≤ iv.2 - iv.1))

/-! ### cleansh-core merge and core extraction

Embeds `EntropyEngine::find_matches_internal` and
`extract_secret_core_indices` from
`cleansh-core/src/engines/entropy_engine.rs`. -/

/-- Stitcher stop set: whitespace and `" ' , ; ] } ) >`. -/
def isStitchStopByte (b : Nat) : Bool :=
  isAsciiWhitespaceB b || decide (b = 34) || decide (b = 39) || decide (b = 44)
    || decide (b = 59) || decide (b = 93) || decide (b = 125) || decide (b = 41)
    || decide (b = 62)

def stitchGo (text : List Nat) : Nat → Nat → Nat
  | 0, e => e
  | fuel + 1, e =>
    if isStitchStopByte (text.getD e 0) then e else stitchGo text fuel (e + 1)

/-- Look-ahead stitcher (step 3 of the core extraction): extend the end while
the next byte is not whitespace or a hard delimiter. -/
def stitchEnd (text : List Nat) (e : Nat) : Nat := stitchGo text (text.length - e) e

/-- Core tail-trim set (step 4 of the core extraction): whitespace and
`. , ! ? ] } > ) " ' ;`. -/
def isCoreTailByte (b : Nat) : Bool :=
  isAsciiWhitespaceB b || decide (b = 46) || decide (b = 44) || decide (b = 33)
    || decide (b = 63) || decide (b = 93) || decide (b = 125) || decide (b = 62)
    || decide (b = 41) || decide (b = 34) || decide (b = 39) || decide (b = 59)

def coreTailGo (text : List Nat) (s : Nat) : Nat → Nat → Nat
  | 0, e => e
  | fuel + 1, e =>
    if decide (s + 2 < e) && isCoreTailByte (text.getD (e - 1) 0) then
      coreTailGo text s fuel (e - 1)
    else e

def coreTailTrim (text : List Nat) (s e : Nat) : Nat := coreTailGo text s (e - s) e

/-- Embeds `EntropyEngine::extract_secret_core_indices` (cleansh-core): semantic
anchor, leading trim, look-ahead stitcher, tail trim — in this order. -/
def extractCore (text : List Nat) (iv : Nat × Nat) : Nat × Nat :=
  let s1 := anchorStart text iv.1 iv.2
  let s2 := leadTrim text s1 iv.2
  let e1 := stitchEnd text iv.2
  (s2, coreTailTrim text s2 e1)

/-- Stable sort by a natural-number key (models Vec `sort_by`, which is
stable); defined structurally so that concrete runs reduce in the kernel. -/
def insertByKey {α : Type} (key : α → Nat) (x : α) : List α → List α
  | [] => [x]
  | y :: rest => if key x ≤ key y then x :: y :: rest else y :: insertByKey key x rest

def sortByKey {α : Type} (key : α → Nat) : List α → List α
  | [] => []
  | x :: rest => insertByKey key x (sortByKey key rest)

theorem insertByKey_perm {α : Type} (key : α → Nat) (x : α) (l : List α) :
    (insertByKey key x l).Perm (x :: l) := by
  induction l with
  | nil => rfl
  | cons y rest ih =>
    rw [insertByKey]
    by_cases h : key x ≤ key y
    · rw [if_pos h]
    · rw [if_neg h]
      exact (ih.cons y).trans (List.Perm.swap x y rest)

theorem sortByKey_perm {α : Type} (key : α → Nat) (l : List α) :
    (sortByKey key l).Perm l := by
  induction l with
  | nil => rfl
  | cons x rest ih =>
    rw [sortByKey]
    exact (insertByKey_perm key x (sortByKey key rest)).trans (ih.cons x)

def sortByStart (l : List (Nat × Nat)) : List (Nat × Nat) :=
  sortByKey Prod.fst l

/-- The merge loop of `find_matches_internal`: extend the current end to the
max when the next start does not exceed it. -/
def coreMergeGo (cs ce : Nat) : List (Nat × Nat) → List (Nat × Nat)
  | [] => [(cs, ce)]
  | (s, e) :: rest =>
    if s ≤ ce then coreMergeGo cs (max ce e) rest
    else (cs, ce) :: coreMergeGo s e rest

def coreMerge : List (Nat × Nat) → List (Nat × Nat)
  | [] => []
  | (s, e) :: rest => coreMergeGo s e rest

/-- Embeds `find_matches_internal` at the interval level: inner scan on the stripped
bytes, early return on empty, sort by start, merge, then core extraction. -/
noncomputable def entropyFindIntervals (H : List Nat → ℝ) (thr : ℝ) (W : Nat)
    (stripped : List Nat) : List (Nat × Nat) :=
  let ms := entropyScan H thr W stripped
  if ms = [] then []
  else (coreMerge (sortByStart ms)).map (extractCore stripped)

/-- The emitted entropy `RedactionMatch`es: `(start, end, original_string)`
where `original_string = &stripped_input[start..end]`. -/
noncomputable def entropyFindMatches (H : List Nat → ℝ) (thr : ℝ) (W : Nat)
    (stripped : List Nat) : List (Nat × Nat × List Nat) :=
  (entropyFindIntervals H thr W stripped).map
    (fun iv => (iv.1, iv.2, slice stripped iv.1 iv.2))

/-! ## C7: baseline construction versus the leave-one-out claim -/

def chunksPosGo (step : Nat) : Nat → Nat → List Nat → List (Nat × List Nat)
  | 0, _, _ => []
  | _, _, [] => []
  | fuel + 1, pos, l =>
    (pos, l.take step) :: chunksPosGo step fuel (pos + step) (l.drop step)

def chunksPos (step : Nat) (l : List Nat) : List (Nat × List Nat) :=
  chunksPosGo step l.length 0 l

/-- Modelled from the spec: the claimed baseline — chunk the whole input into
fixed-size chunks (default 32 bytes, at least 8), discard every chunk that
overlaps the candidate window `[i, i + tokenLen)` (strict leave-one-out), cap
at 128 samples. -/
def specBaselineSamples (tokenLen i : Nat) (ctx : List Nat) (chunkSize : Nat) :
    List (List Nat) :=
  let size := max 8 (if 0 < chunkSize then chunkSize else 32)
  (((chunksPos size ctx).filter
      (fun pc => decide (pc.1 + pc.2.length ≤ i) || decide (i + tokenLen ≤ pc.1))).map
    Prod.snd).take 128

/-- C7 counterexample: for the candidate window at offset 0 of length 32 in a
64-byte input (default scanner config, `window_chunk_size = 0`), the code's
baseline contains the candidate's *own* chunk — the chunk equal to the token
itself — and differs from the spec's leave-one-out baseline. -/
theorem baseline_leave_one_out_claim_false :
    scannerSamples (List.range 32) (List.range 64) 0
        ≠ specBaselineSamples 32 0 (List.range 64) 0
    ∧ List.range 32 ∈ scannerSamples (List.range 32) (List.range 64) 0 := by
  refine ⟨?_, ?_⟩ <;> decide

/-- C7 amended: the baseline sample set is the input chunked with step
`window_chunk_size` when positive, else the *token length* (the default config
sets 0, so the step defaults to the window size, not 32); every chunk of at
least half the token length is kept — including chunks overlapping the
candidate window, which the scanner does not even receive — capped at 128
samples. -/
theorem scanner_baseline_characterization (token ctx : List Nat) (chunkSize : Nat) :
    scannerSamples token ctx chunkSize
      = ((chunks (if 0 < chunkSize then chunkSize else token.length) ctx).filter
          (fun c => decide (token.length / 2 ≤ c.length))).take 128 := by
  simp only [scannerSamples]
  rw [sampleLoopGo_eq]

/-! ## Interval bounds through the pipeline (towards C2) -/

theorem scanLoopB_bounds (hot : Nat → Bool) (len W : Nat) :
    ∀ (fuel i : Nat), ∀ iv ∈ scanLoopB hot len W fuel i,
      i ≤ iv.1 ∧ iv.2 = iv.1 + W ∧ iv.1 + W ≤ len := by
  intro fuel
  induction fuel with
  | zero => intro i iv h; simp [scanLoopB] at h
  | succ fuel ih =>
    intro i iv h
    rw [scanLoopB] at h
    by_cases hin : i + W ≤ len
    · rw [if_pos hin] at h
      by_cases hh : hot i = true
      · rw [if_pos hh] at h
        rcases List.mem_cons.mp h with rfl | hmem
        · exact ⟨le_refl _, rfl, hin⟩
        · have := ih (i + W / 2) iv hmem
          exact ⟨by omega, this.2⟩
      · rw [if_neg hh] at h
        have := ih (i + 1) iv h
        exact ⟨by omega, this.2⟩
    · rw [if_neg hin] at h
      simp at h

theorem scanLoopB_sorted (hot : Nat → Bool) (len W : Nat) :
    ∀ (fuel i : Nat),
      (scanLoopB hot len W fuel i).Pairwise (fun a b => a.1 ≤ b.1) := by
  intro fuel
  induction fuel with
  | zero => intro i; simp [scanLoopB]
  | succ fuel ih =>
    intro i
    rw [scanLoopB]
    by_cases hin : i + W ≤ len
    · rw [if_pos hin]
      by_cases hh : hot i = true
      · rw [if_pos hh]
        refine List.Pairwise.cons ?_ (ih (i + W / 2))
        intro iv hiv
        have := (scanLoopB_bounds hot len W fuel (i + W / 2) iv hiv).1
        omega
      · rw [if_neg hh]; exact ih (i + 1)
    · rw [if_neg hin]; simp

theorem consolidateGo_bounds (len : Nat) :
    ∀ (l : List (Nat × Nat)) (cs ce : Nat),
      (∀ iv ∈ l, iv.1 ≤ iv.2 ∧ iv.2 ≤ len) →
      l.Pairwise (fun a b => a.1 ≤ b.1) →
      (∀ iv ∈ l, cs ≤ iv.1) →
      cs ≤ ce → ce ≤ len →
      ∀ iv ∈ consolidateGo cs ce l, iv.1 ≤ iv.2 ∧ iv.2 ≤ len := by
  intro l
  induction l with
  | nil =>
    intro cs ce _ _ _ hcs hce iv hiv
    rw [consolidateGo] at hiv
    rw [List.mem_singleton] at hiv
    subst hiv
    exact ⟨hcs, hce⟩
  | cons hd rest ih =>
    intro cs ce hval hsort hge hcs hce iv hiv
    obtain ⟨s, e⟩ := hd
    rw [consolidateGo] at hiv
    have hhd := hval (s, e) (List.mem_cons_self _ _)
    by_cases hm : s ≤ ce
    · rw [if_pos hm] at hiv
      refine ih cs e (fun x hx => hval x (List.mem_cons_of_mem _ hx))
        hsort.of_cons
        (fun x hx => le_trans (hge _ (List.mem_cons_self _ _))
          (List.rel_of_pairwise_cons hsort hx))
        (le_trans (hge _ (List.mem_cons_self _ _)) hhd.1) hhd.2 iv hiv
    · rw [if_neg hm] at hiv
      rcases List.mem_cons.mp hiv with rfl | hmem
      · exact ⟨hcs, hce⟩
      · exact ih s e (fun x hx => hval x (List.mem_cons_of_mem _ hx))
          hsort.of_cons
          (fun x hx => List.rel_of_pairwise_cons hsort hx)
          hhd.1 hhd.2 iv hmem

theorem consolidateIv_bounds (len : Nat) (l : List (Nat × Nat))
    (hval : ∀ iv ∈ l, iv.1 ≤ iv.2 ∧ iv.2 ≤ len)
    (hsort : l.Pairwise (fun a b => a.1 ≤ b.1)) :
    ∀ iv ∈ consolidateIv l, iv.1 ≤ iv.2 ∧ iv.2 ≤ len := by
  cases l with
  | nil => intro iv hiv; simp [consolidateIv] at hiv
  | cons hd rest =>
    obtain ⟨s, e⟩ := hd
    have hhd := hval (s, e) (List.mem_cons_self _ _)
    exact consolidateGo_bounds len rest s e
      (fun x hx => hval x (List.mem_cons_of_mem _ hx))
      hsort.of_cons
      (fun x hx => List.rel_of_pairwise_cons hsort hx)
      hhd.1 hhd.2

theorem anchorStart_bounds (text : List Nat) (s e : Nat) (h : s ≤ e) :
    s ≤ anchorStart text s e ∧ anchorStart text s e ≤ e := by
  cases hv : rposDelim (slice text s e) with
  | none =>
    rw [anchorStart, hv]
    exact ⟨le_refl _, h⟩
  | some pos =>
    rw [anchorStart, hv]
    dsimp only
    by_cases hlt : s + pos + 1 < e
    · rw [if_pos hlt]; omega
    · rw [if_neg hlt]; exact ⟨le_refl _, h⟩

theorem leadTrimGo_bounds (text : List Nat) :
    ∀ (fuel s : Nat), s ≤ leadTrimGo text fuel s ∧ leadTrimGo text fuel s ≤ s + fuel := by
  intro fuel
  induction fuel with
  | zero => intro s; simp [leadTrimGo]
  | succ fuel ih =>
    intro s
    rw [leadTrimGo]
    by_cases hb : isLeadTrimByte (text.getD s 0) = true
    · rw [if_pos hb]
      have := ih (s + 1)
      omega
    · rw [if_neg hb]; omega

theorem leadTrim_bounds (text : List Nat) (s e : Nat) (h : s ≤ e) :
    s ≤ leadTrim text s e ∧ leadTrim text s e ≤ e := by
  have := leadTrimGo_bounds text (e - s) s
  rw [leadTrim]
  omega

theorem lowTailGo_bounds (text : List Nat) (s : Nat) :
    ∀ (fuel e : Nat), s ≤ e → s ≤ lowTailGo text s fuel e ∧ lowTailGo text s fuel e ≤ e := by
  intro fuel
  induction fuel with
  | zero => intro e h; simp [lowTailGo]; omega
  | succ fuel ih =>
    intro e h
    rw [lowTailGo]
    by_cases hb : (decide (s + 2 < e) && isLowTailByte (text.getD (e - 1) 0)) = true
    · rw [if_pos hb]
      simp only [Bool.and_eq_true, decide_eq_true_eq] at hb
      have := ih (e - 1) (by omega)
      omega
    · rw [if_neg hb]; omega

theorem lowTailTrim_bounds (text : List Nat) (s e : Nat) (h : s ≤ e) :
    s ≤ lowTailTrim text s e ∧ lowTailTrim text s e ≤ e :=
  lowTailGo_bounds text s (e - s) e h

theorem stitchGo_bounds (text : List Nat) :
    ∀ (fuel e : Nat), e ≤ stitchGo text fuel e ∧ stitchGo text fuel e ≤ e + fuel := by
  intro fuel
  induction fuel with
  | zero => intro e; simp [stitchGo]
  | succ fuel ih =>
    intro e
    rw [stitchGo]
    by_cases hb : isStitchStopByte (text.getD e 0) = true
    · rw [if_pos hb]; omega
    · rw [if_neg hb]
      have := ih (e + 1)
      omega

theorem stitchEnd_bounds (text : List Nat) (e : Nat) (h : e ≤ text.length) :
    e ≤ stitchEnd text e ∧ stitchEnd text e ≤ text.length := by
  have := stitchGo_bounds text (text.length - e) e
  rw [stitchEnd]
  omega

theorem coreTailGo_bounds (text : List Nat) (s : Nat) :
    ∀ (fuel e : Nat), s ≤ e → s ≤ coreTailGo text s fuel e ∧ coreTailGo text s fuel e ≤ e := by
  intro fuel
  induction fuel with
  | zero => intro e h; simp [coreTailGo]; omega
  | succ fuel ih =>
    intro e h
    rw [coreTailGo]
    by_cases hb : (decide (s + 2 < e) && isCoreTailByte (text.getD (e - 1) 0)) = true
    · rw [if_pos hb]
      simp only [Bool.and_eq_true, decide_eq_true_eq] at hb
      have := ih (e - 1) (by omega)
      omega
    · rw [if_neg hb]; omega

theorem coreTailTrim_bounds (text : List Nat) (s e : Nat) (h : s ≤ e) :
    s ≤ coreTailTrim text s e ∧ coreTailTrim text s e ≤ e :=
  coreTailGo_bounds text s (e - s) e h

theorem extractLow_bounds (text : List Nat) (iv : Nat × Nat)
    (h1 : iv.1 ≤ iv.2) (h2 : iv.2 ≤ text.length) :
    (extractLow text iv).1 ≤ (extractLow text iv).2
      ∧ (extractLow text iv).2 ≤ text.length := by
  rw [extractLow]
  have ha := anchorStart_bounds text iv.1 iv.2 h1
  have hl := leadTrim_bounds text (anchorStart text iv.1 iv.2) iv.2 ha.2
  have ht := lowTailTrim_bounds text (leadTrim text (anchorStart text iv.1 iv.2) iv.2)
    iv.2 hl.2
  exact ⟨ht.1, le_trans ht.2 h2⟩

theorem extractCore_bounds (text : List Nat) (iv : Nat × Nat)
    (h1 : iv.1 ≤ iv.2) (h2 : iv.2 ≤ text.length) :
    (extractCore text iv).1 ≤ (extractCore text iv).2
      ∧ (extractCore text iv).2 ≤ text.length := by
  rw [extractCore]
  have ha := anchorStart_bounds text iv.1 iv.2 h1
  have hl := leadTrim_bounds text (anchorStart text iv.1 iv.2) iv.2 ha.2
  have hs := stitchEnd_bounds text iv.2 h2
  have ht := coreTailTrim_bounds text (leadTrim text (anchorStart text iv.1 iv.2) iv.2)
    (stitchEnd text iv.2) (le_trans hl.2 hs.1)
  exact ⟨ht.1, le_trans ht.2 hs.2⟩

theorem coreMergeGo_bounds (len : Nat) :
    ∀ (l : List (Nat × Nat)) (cs ce : Nat),
      (∀ iv ∈ l, iv.1 ≤ iv.2 ∧ iv.2 ≤ len) →
      cs ≤ ce → ce ≤ len →
      ∀ iv ∈ coreMergeGo cs ce l, iv.1 ≤ iv.2 ∧ iv.2 ≤ len := by
  intro l
  induction l with
  | nil =>
    intro cs ce _ hcs hce iv hiv
    rw [coreMergeGo] at hiv
    rw [List.mem_singleton] at hiv
    subst hiv
    exact ⟨hcs, hce⟩
  | cons hd rest ih =>
    intro cs ce hval hcs hce iv hiv
    obtain ⟨s, e⟩ := hd
    rw [coreMergeGo] at hiv
    have hhd := hval (s, e) (List.mem_cons_self _ _)
    by_cases hm : s ≤ ce
    · rw [if_pos hm] at hiv
      exact ih cs (max ce e) (fun x hx => hval x (List.mem_cons_of_mem _ hx))
        (le_trans hcs (le_max_left _ _)) (max_le hce hhd.2) iv hiv
    · rw [if_neg hm] at hiv
      rcases List.mem_cons.mp hiv with rfl | hmem
      · exact ⟨hcs, hce⟩
      · exact ih s e (fun x hx => hval x (List.mem_cons_of_mem _ hx))
          hhd.1 hhd.2 iv hmem

theorem coreMerge_bounds (len : Nat) (l : List (Nat × Nat))
    (hval : ∀ iv ∈ l, iv.1 ≤ iv.2 ∧ iv.2 ≤ len) :
    ∀ iv ∈ coreMerge l, iv.1 ≤ iv.2 ∧ iv.2 ≤ len := by
  cases l with
  | nil => intro iv hiv; simp [coreMerge] at hiv
  | cons hd rest =>
    obtain ⟨s, e⟩ := hd
    have hhd := hval (s, e) (List.mem_cons_self _ _)
    exact coreMergeGo_bounds len rest s e
      (fun x hx => hval x (List.mem_cons_of_mem _ hx)) hhd.1 hhd.2

theorem entropyScan_bounds (H : List Nat → ℝ) (thr : ℝ) (W : Nat)
    (text : List Nat) :
    ∀ iv ∈ entropyScan H thr W text, iv.1 ≤ iv.2 ∧ iv.2 ≤ text.length := by
  intro iv hiv
  rw [entropyScan] at hiv
  by_cases hshort : text.length < W
  · rw [if_pos hshort] at hiv; simp at hiv
  · rw [if_neg hshort] at hiv
    have hmem := List.mem_of_mem_filter hiv
    obtain ⟨iv0, hiv0, rfl⟩ := List.mem_map.mp hmem
    have hraw : ∀ x ∈ scanLoopB (engineHot H thr text W) text.length W
        (text.length + 1) 0, x.1 ≤ x.2 ∧ x.2 ≤ text.length := by
      intro x hx
      have := scanLoopB_bounds (engineHot H thr text W) text.length W
        (text.length + 1) 0 x hx
      omega
    have hcons := consolidateIv_bounds text.length _ hraw
      (scanLoopB_sorted (engineHot H thr text W) text.length W (text.length + 1) 0)
      iv0 hiv0
    exact extractLow_bounds text iv0 hcons.1 hcons.2

theorem sortByStart_mem (l : List (Nat × Nat)) (iv : Nat × Nat) :
    iv ∈ sortByStart l ↔ iv ∈ l := by
  rw [sortByStart]
  exact List.Perm.mem_iff (sortByKey_perm Prod.fst l)

theorem entropyFindIntervals_bounds (H : List Nat → ℝ) (thr : ℝ) (W : Nat)
    (stripped : List Nat) :
    ∀ iv ∈ entropyFindIntervals H thr W stripped,
      iv.1 ≤ iv.2 ∧ iv.2 ≤ stripped.length := by
  intro iv hiv
  rw [entropyFindIntervals] at hiv
  by_cases hemp : entropyScan H thr W stripped = []
  · simp only [hemp, if_pos] at hiv
    simp at hiv
  · rw [if_neg hemp] at hiv
    obtain ⟨iv0, hiv0, rfl⟩ := List.mem_map.mp hiv
    have hm := coreMerge_bounds stripped.length _
      (fun x hx => entropyScan_bounds H thr W stripped x
        ((sortByStart_mem _ x).mp hx)) iv0 hiv0
    exact extractCore_bounds stripped iv0 hm.1 hm.2

/-! ## Regex engine match model

`RegexEngine::find_matches` iterates the external regex crate's
`captures_iter` over the stripped input.  The matcher is abstracted as the
list of capture sets it returns (group 0 is the overall match, per the crate's
contract); the programmatic validator dispatch is an oracle on the matched
text.  A match is emitted with `original_match.as_str()`,
`original_match.start()`, `original_match.end()` — byte offsets into the
stripped input. -/

def regexRuleMatches (stripped : List Nat)
    (caps : List (List (Option (Nat × Nat)))) (validate : List Nat → Bool) :
    List (Nat × Nat × List Nat) :=
  caps.filterMap (fun capset =>
    match capset.getD 0 none with
    | some se =>
      if validate (slice stripped se.1 se.2) then
        some (se.1, se.2, slice stripped se.1 se.2)
      else none
    | none => none)

/-- C2: every match emitted by either engine's match-finding on input `S`
satisfies `0 ≤ start ≤ end ≤ |strip_ansi(S)|` (byte offsets into the stripped
view) and `strip_ansi(S)[start..end] = original_string`.  The theorem is
stated over an arbitrary stripped byte string (both engines apply the finders
to `strip(S)`), over any entropy function/threshold/window, and — for the
pattern engine — under the regex crate's contract that group-0 spans are valid
spans of its input. -/
theorem match_invariant
    (H : List Nat → ℝ) (thr : ℝ) (W : Nat) (stripped : List Nat)
    (caps : List (List (Option (Nat × Nat)))) (validate : List Nat → Bool)
    (hcaps : ∀ capset ∈ caps, ∀ se, capset.getD 0 none = some se →
      se.1 ≤ se.2 ∧ se.2 ≤ stripped.length) :
    (∀ m ∈ entropyFindMatches H thr W stripped,
      m.1 ≤ m.2.1 ∧ m.2.1 ≤ stripped.length ∧ m.2.2 = slice stripped m.1 m.2.1)
    ∧ (∀ m ∈ regexRuleMatches stripped caps validate,
      m.1 ≤ m.2.1 ∧ m.2.1 ≤ stripped.length ∧ m.2.2 = slice stripped m.1 m.2.1) := by
  constructor
  · intro m hm
    rw [entropyFindMatches] at hm
    obtain ⟨iv, hiv, rfl⟩ := List.mem_map.mp hm
    have hb := entropyFindIntervals_bounds H thr W stripped iv hiv
    exact ⟨hb.1, hb.2, rfl⟩
  · intro m hm
    rw [regexRuleMatches] at hm
    obtain ⟨capset, hcs, hsome⟩ := List.mem_filterMap.mp hm
    cases hv : capset.getD 0 none with
    | none => rw [hv] at hsome; simp at hsome
    | some se =>
      rw [hv] at hsome
      dsimp only at hsome
      by_cases hval : validate (slice stripped se.1 se.2) = true
      · rw [if_pos hval] at hsome
        have hm' : (se.1, se.2, slice stripped se.1 se.2) = m :=
          Option.some_injective _ hsome
        subst hm'
        have hb := hcaps capset hcs se hv
        exact ⟨hb.1, hb.2, rfl⟩
      · rw [if_neg hval] at hsome; simp at hsome

/-- Witness for C2 at a concrete matcher and input. -/
theorem match_invariant_witness :
    (0 : Nat) ≤ 1 ∧ 1 ≤ (asciiBytes "ab").length
      ∧ [97] = slice (asciiBytes "ab") 0 1 :=
  (match_invariant (fun _ => 0) 0 2 (asciiBytes "ab") [[some (0, 1)]]
      (fun _ => true)
      (by
        intro capset hcs se hse
        rw [List.mem_singleton] at hcs
        subst hcs
        simp only [List.getD_cons_zero] at hse
        cases hse
        exact ⟨by decide, by decide⟩)).2
    (0, 1, [97]) (by decide)

/-! ## Entropy engine sanitize and analyze (cleansh-core)

`EntropyEngine::sanitize` builds the output on the *original* content (byte
slices at mapped offsets, `"[ENTROPY_REDACTED]"` replacements) and counts in
its summary only the matches it actually applies (`original_end ≤ last_end`
skips both the splice and the summary update), while `analyze_for_stats`
counts every found match.  Content is a char list; its UTF-8 bytes feed the
byte-level pipeline. -/

def utf8Bytes (c : Char) : List Nat :=
  let n := c.toNat
  if n < 128 then [n]
  else if n < 2048 then [192 + n / 64, 128 + n % 64]
  else if n < 65536 then [224 + n / 4096, 128 + n / 64 % 64, 128 + n % 64]
  else [240 + n / 262144, 128 + n / 4096 % 64, 128 + n / 64 % 64, 128 + n % 64]

def utf8Encode (l : List Char) : List Nat :=
  l.foldr (fun c acc => utf8Bytes c ++ acc) []

def sortByStartM (l : List (Nat × Nat × List Nat)) : List (Nat × Nat × List Nat) :=
  sortByKey (fun m => m.1) l

/-- The application loop of `sanitize`: map both offsets through the index
mapper, drop a match whose mapped end does not advance past `last_end`,
otherwise splice `content[last_end .. max(orig_start, last_end)]` and the
replacement, and count it.  Returns the sanitized bytes and the number of
applied matches (= the `occurrences` recorded for the single entropy rule). -/
def applyGo (content : List Nat) (mapT : List Nat) (repl : List Nat) :
    List (Nat × Nat × List Nat) → Nat → List Nat × Nat
  | [], lastEnd => (content.drop lastEnd, 0)
  | m :: rest, lastEnd =>
    let os := mapIndex mapT m.1
    let oe := mapIndex mapT m.2.1
    if oe ≤ lastEnd then applyGo content mapT repl rest lastEnd
    else
      let r := applyGo content mapT repl rest oe
      (slice content lastEnd (max os lastEnd) ++ repl ++ r.1, r.2 + 1)

/-- Embeds `EntropyEngine::sanitize`: returns (sanitized bytes, per-rule occurrence
count of `high_entropy_secret`). -/
noncomputable def entropySanitize (H : List Nat → ℝ) (thr : ℝ) (W : Nat)
    (content : List Char) : List Nat × Nat :=
  let stripped := utf8Encode (stripAnsi content)
  applyGo (utf8Encode content) (buildMap content) (asciiBytes "[ENTROPY_REDACTED]")
    (sortByStartM (entropyFindMatches H thr W stripped)) 0

/-- Embeds `EntropyEngine::analyze_for_stats`: the per-rule occurrence count is the
number of *all* found matches. -/
noncomputable def entropyAnalyzeCount (H : List Nat → ℝ) (thr : ℝ) (W : Nat)
    (content : List Char) : Nat :=
  (entropyFindMatches H thr W (utf8Encode (stripAnsi content))).length

theorem applyGo_count_le (content mapT repl : List Nat) :
    ∀ (ms : List (Nat × Nat × List Nat)) (lastEnd : Nat),
      (applyGo content mapT repl ms lastEnd).2 ≤ ms.length := by
  intro ms
  induction ms with
  | nil => intro lastEnd; simp [applyGo]
  | cons m rest ih =>
    intro lastEnd
    rw [applyGo]
    by_cases hd : mapIndex mapT m.2.1 ≤ lastEnd
    · rw [if_pos hd]
      calc (applyGo content mapT repl rest lastEnd).2 ≤ rest.length := ih lastEnd
        _ ≤ (m :: rest).length := by simp
    · rw [if_neg hd]
      have := ih (mapIndex mapT m.2.1)
      simp only [List.length_cons]
      omega

/-- The sanitize summary never counts more matches than analyze. -/
theorem entropySanitize_count_le (H : List Nat → ℝ) (thr : ℝ) (W : Nat)
    (content : List Char) :
    (entropySanitize H thr W content).2 ≤ entropyAnalyzeCount H thr W content := by
  rw [entropySanitize, entropyAnalyzeCount]
  calc (applyGo (utf8Encode content) (buildMap content)
        (asciiBytes "[ENTROPY_REDACTED]")
        (sortByStartM (entropyFindMatches H thr W (utf8Encode (stripAnsi content)))) 0).2
      ≤ (sortByStartM (entropyFindMatches H thr W
          (utf8Encode (stripAnsi content)))).length := applyGo_count_le _ _ _ _ 0
    _ = (entropyFindMatches H thr W (utf8Encode (stripAnsi content))).length := by
        rw [sortByStartM]
        exact (sortByKey_perm _ _).length_eq

/-! ## Concrete evaluation of the entropy pipeline

On inputs whose adjacent bytes are pairwise distinct (even length, ≤ 256
bytes), every baseline chunk and every sliding window is a two-byte pair of
distinct bytes with Shannon entropy exactly 1 bit, the baseline variance is 0,
and every z-score is 0 — so with `window_size = 2` and threshold 0.5 the hot
decision reduces to the keyword-context test alone.  This lets concrete runs
of the real-valued pipeline be computed exactly. -/

/-- Executable test that all adjacent bytes of a list are distinct. -/
def adjacentDistinct : List Nat → Bool
  | [] => true
  | [_] => true
  | x :: y :: rest => decide (x ≠ y) && adjacentDistinct (y :: rest)

theorem adjacentDistinct_chain (T : List Nat) (h : adjacentDistinct T = true) :
    T.Chain' (· ≠ ·) := by
  induction T with
  | nil => exact List.chain'_nil
  | cons x rest ih =>
    cases rest with
    | nil => exact List.chain'_singleton x
    | cons y rest2 =>
      rw [adjacentDistinct, Bool.and_eq_true, decide_eq_true_eq] at h
      exact List.chain'_cons.mpr ⟨h.1, ih h.2⟩

theorem shannonEntropy_pair (a b : Nat) (ha : a < 256) (hb : b < 256)
    (hne : a ≠ b) : shannonEntropy [a, b] = 1 := by
  rw [shannonEntropy, if_neg (by simp)]
  have hC : ∀ x ∈ Finset.range 256,
      (if 0 < List.count x [a, b] then
        ((List.count x [a, b] : ℝ) / (([a, b] : List Nat).length : ℝ))
          * Real.logb 2 ((List.count x [a, b] : ℝ) / (([a, b] : List Nat).length : ℝ))
      else 0)
      = (if x = a then (1/2 : ℝ) * Real.logb 2 (1/2) else 0)
        + (if x = b then (1/2 : ℝ) * Real.logb 2 (1/2) else 0) := by
    intro x _
    by_cases hxa : x = a
    · subst hxa
      have hc : List.count x [x, b] = 1 := by
        simp [List.count_cons, hne]
      rw [hc, if_pos (by norm_num), if_pos rfl, if_neg hne]
      push_cast
      norm_num
    · by_cases hxb : x = b
      · subst hxb
        have hc : List.count x [a, x] = 1 := by
          simp [List.count_cons, fun h => hxa h]
        rw [hc, if_pos (by norm_num), if_neg hxa, if_pos rfl]
        push_cast
        norm_num
      · have hc : List.count x [a, b] = 0 := by
          rw [List.count_eq_zero]
          simp [hxa, hxb]
        rw [hc, if_neg (by norm_num), if_neg hxa, if_neg hxb]
        norm_num
  rw [Finset.sum_congr rfl hC, Finset.sum_add_distrib]
  rw [Finset.sum_ite_eq' (Finset.range 256) a (fun _ => (1/2 : ℝ) * Real.logb 2 (1/2))]
  rw [Finset.sum_ite_eq' (Finset.range 256) b (fun _ => (1/2 : ℝ) * Real.logb 2 (1/2))]
  rw [if_pos (Finset.mem_range.mpr ha), if_pos (Finset.mem_range.mpr hb)]
  have hlb : Real.logb 2 (1/2 : ℝ) = -1 := by
    rw [show (1/2 : ℝ) = 2⁻¹ by norm_num, Real.logb_inv,
      Real.logb_self_eq_one (by norm_num)]
  rw [hlb]
  norm_num

theorem computeStats_ones (vs : List ℝ) (hne : vs ≠ []) (hall : ∀ x ∈ vs, x = 1) :
    computeStats vs = (1, 0) := by
  have hlen : (0:ℝ) < vs.length :=
    Nat.cast_pos.mpr (List.length_pos.mpr hne)
  have hmean : statsMean vs = 1 := by
    rw [statsMean, List.sum_eq_card_nsmul vs 1 hall, nsmul_eq_mul, mul_one]
    field_simp
  have hvar : statsVariance vs = 0 := by
    rw [statsVariance]
    have hz : ∀ x ∈ vs.map (fun v => (statsMean vs - v) * (statsMean vs - v)), x = 0 := by
      intro x hx
      obtain ⟨v, hv, rfl⟩ := List.mem_map.mp hx
      rw [hall v hv, hmean]
      ring
    rw [List.sum_eq_zero hz, zero_div]
  rw [computeStats, if_neg hne, hmean, hvar, Real.sqrt_zero]

theorem chunksGo_two_struct :
    ∀ (fuel : Nat) (T : List Nat), T.length ≤ fuel → T.length % 2 = 0 →
      T.Chain' (· ≠ ·) →
      (chunksGo 2 fuel T).length * 2 = T.length
      ∧ ∀ c ∈ chunksGo 2 fuel T, ∃ x y, c = [x, y] ∧ x ≠ y ∧ x ∈ T ∧ y ∈ T := by
  intro fuel
  induction fuel with
  | zero =>
    intro T hlen _ _
    have : T = [] := List.length_eq_zero.mp (by omega)
    subst this
    simp [chunksGo]
  | succ fuel ih =>
    intro T hlen heven hadj
    rcases T with _ | ⟨x, T'⟩
    · simp [chunksGo]
    · rcases T' with _ | ⟨y, rest⟩
      · simp at heven
      have hxy : x ≠ y ∧ (y :: rest).Chain' (· ≠ ·) := List.chain'_cons.mp hadj
      have hrest : rest.Chain' (· ≠ ·) := hxy.2.tail
      have hlen' : rest.length ≤ fuel := by
        simp only [List.length_cons] at hlen; omega
      have heven' : rest.length % 2 = 0 := by
        simp only [List.length_cons] at heven ⊢; omega
      obtain ⟨ihl, ihc⟩ := ih rest hlen' heven' hrest
      have hstep : chunksGo 2 (fuel + 1) (x :: y :: rest)
          = [x, y] :: chunksGo 2 fuel rest := rfl
      constructor
      · rw [hstep]
        simp only [List.length_cons]
        omega
      · intro c hc
        rw [hstep] at hc
        rcases List.mem_cons.mp hc with rfl | hmem
        · exact ⟨x, y, rfl, hxy.1, by simp, by simp⟩
        · obtain ⟨u, v, hcuv, huv, hu, hv⟩ := ihc c hmem
          exact ⟨u, v, hcuv, huv, by simp [hu], by simp [hv]⟩

theorem chunks_two_struct (T : List Nat) (heven : T.length % 2 = 0)
    (hadj : T.Chain' (· ≠ ·)) :
    (chunks 2 T).length * 2 = T.length
    ∧ ∀ c ∈ chunks 2 T, ∃ x y, c = [x, y] ∧ x ≠ y ∧ x ∈ T ∧ y ∈ T :=
  chunksGo_two_struct T.length T (le_refl _) heven hadj

theorem slice_window_pair (T : List Nat) (i : Nat) (hi : i + 2 ≤ T.length) :
    ∃ h1 : i < T.length, ∃ h2 : i + 1 < T.length,
      slice T i (i + 2) = [T[i], T[i + 1]] := by
  have h1 : i < T.length := by omega
  have h2 : i + 1 < T.length := by omega
  refine ⟨h1, h2, ?_⟩
  have hd1 : T.drop i = T[i] :: T.drop (i + 1) := List.drop_eq_getElem_cons h1
  have hd2 : T.drop (i + 1) = T[i + 1] :: T.drop (i + 2) := List.drop_eq_getElem_cons h2
  rw [slice, show i + 2 - i = 2 by omega, hd1, hd2]
  rfl

theorem engineHot_reduction (T : List Nat)
    (hadj : T.Chain' (· ≠ ·)) (heven : T.length % 2 = 0)
    (hlen : T.length ≤ 256) (hlt : ∀ b ∈ T, b < 256) (i : Nat)
    (hi : i + 2 ≤ T.length) :
    engineHot shannonEntropy (1/2) T 2 i = scanPrecedingContext T i 48 := by
  obtain ⟨h1, h2, hwin⟩ := slice_window_pair T i hi
  have hpairne : T[i] ≠ T[i + 1] := by
    have := List.chain'_iff_get.mp hadj i (by omega)
    simpa using this
  have hwinent : shannonEntropy (slice T i (i + 2)) = 1 := by
    rw [hwin]
    exact shannonEntropy_pair _ _ (hlt _ (List.getElem_mem h1))
      (hlt _ (List.getElem_mem h2)) hpairne
  have htoklen : (slice T i (i + 2)).length = 2 := by rw [hwin]; rfl
  obtain ⟨hchl, hchc⟩ := chunks_two_struct T heven hadj
  have hfilterall : ∀ c ∈ chunks 2 T, decide (2 / 2 ≤ c.length) = true := by
    intro c hc
    obtain ⟨x, y, rfl, -, -, -⟩ := hchc c hc
    simp
  have hsamp : scannerSamples (slice T i (i + 2)) T 0 = chunks 2 T := by
    rw [scanner_baseline_characterization, htoklen]
    rw [if_neg (lt_irrefl 0)]
    rw [List.filter_eq_self.mpr hfilterall]
    exact List.take_of_length_le (by omega)
  have hmapone : ∀ v ∈ (chunks 2 T).map shannonEntropy, v = 1 := by
    intro v hv
    obtain ⟨c, hc, rfl⟩ := List.mem_map.mp hv
    obtain ⟨x, y, rfl, hxy, hx, hy⟩ := hchc c hc
    exact shannonEntropy_pair x y (hlt x hx) (hlt y hy) hxy
  have hnonempty : (chunks 2 T).map shannonEntropy ≠ [] := by
    intro hcon
    rw [List.map_eq_nil_iff] at hcon
    rw [hcon] at hchl
    simp at hchl
    omega
  have hstats : computeStats ((scannerSamples (slice T i (i + 2)) T 0).map
      shannonEntropy) = (1, 0) := by
    rw [hsamp]
    exact computeStats_ones _ hnonempty hmapone
  have hz : anomalyZ shannonEntropy (slice T i (i + 2)) T 0 = 0 := by
    rw [anomalyZ, if_neg (by rw [htoklen]; omega)]
    simp only [hstats]
    rw [if_neg (by norm_num), if_neg (by rw [hwinent]; norm_num)]
  have hconf : engineWindowConf shannonEntropy T 2 i
      = if scanPrecedingContext T i 48 then 2 else 0 := by
    rw [engineWindowConf, hz]
    by_cases hkw : scanPrecedingContext T i 48 = true
    · rw [calculateConfidence, if_pos hkw]
      norm_num [min_def]
    · rw [Bool.not_eq_true] at hkw
      rw [calculateConfidence, if_neg (by simp [hkw])]
      norm_num [min_def]
  rw [engineHot, hconf]
  by_cases hkw : scanPrecedingContext T i 48 = true
  · rw [hkw]
    rw [decide_eq_true_eq]
    norm_num
  · rw [Bool.not_eq_true] at hkw
    rw [hkw]
    rw [decide_eq_false_iff_not]
    norm_num

theorem scanLoopB_congr (hot1 hot2 : Nat → Bool) (len W : Nat)
    (h : ∀ i, i + W ≤ len → hot1 i = hot2 i) :
    ∀ (fuel i : Nat), scanLoopB hot1 len W fuel i = scanLoopB hot2 len W fuel i := by
  intro fuel
  induction fuel with
  | zero => intro i; rfl
  | succ fuel ih =>
    intro i
    rw [scanLoopB, scanLoopB]
    by_cases hin : i + W ≤ len
    · rw [if_pos hin, if_pos hin, h i hin]
      by_cases hh : hot2 i = true
      · rw [hh]
        simp only [if_true]
        rw [ih]
      · rw [Bool.not_eq_true] at hh
        rw [hh]
        simp only [Bool.false_eq_true, if_false]
        exact ih (i + 1)
    · rw [if_neg hin, if_neg hin]

/-- The keyword-driven computable counterpart of `entropyScan` that the real
pipeline collapses to on pair-distinct inputs. -/
def entropyScanKw (W : Nat) (text : List Nat) : List (Nat × Nat) :=
  if text.length < W then []
  else
    ((consolidateIv (scanLoopB (fun i => scanPrecedingContext text i 48)
        text.length W (text.length + 1) 0)).map (extractLow text)).filter
      (fun iv => decide (6 ≤ iv.2 - iv.1))

def entropyFindIntervalsKw (W : Nat) (stripped : List Nat) : List (Nat × Nat) :=
  let ms := entropyScanKw W stripped
  if ms = [] then []
  else (coreMerge (sortByStart ms)).map (extractCore stripped)

theorem entropyScan_reduction (T : List Nat)
    (hadj : T.Chain' (· ≠ ·)) (heven : T.length % 2 = 0)
    (hlen : T.length ≤ 256) (hlt : ∀ b ∈ T, b < 256) :
    entropyScan shannonEntropy (1/2) 2 T = entropyScanKw 2 T := by
  rw [entropyScan, entropyScanKw]
  by_cases hshort : T.length < 2
  · rw [if_pos hshort, if_pos hshort]
  · rw [if_neg hshort, if_neg hshort]
    rw [scanLoopB_congr (engineHot shannonEntropy (1/2) T 2)
      (fun i => scanPrecedingContext T i 48) T.length 2
      (fun i hi => engineHot_reduction T hadj heven hlen hlt i hi)]

theorem entropyFindIntervals_reduction (T : List Nat)
    (hadj : T.Chain' (· ≠ ·)) (heven : T.length % 2 = 0)
    (hlen : T.length ≤ 256) (hlt : ∀ b ∈ T, b < 256) :
    entropyFindIntervals shannonEntropy (1/2) 2 T = entropyFindIntervalsKw 2 T := by
  rw [entropyFindIntervals, entropyFindIntervalsKw,
    entropyScan_reduction T hadj heven hlen hlt]

/-! ## C9 and C3: concrete runs of the pipeline -/

/-- 20-byte log line: a `key:` label, a digit run, a second label delimiter and
a short value ending in quote/semicolon noise. -/
def exampleLogShort : List Nat := asciiBytes "key:123456789:12;\";\""

/-- 76-byte log line: two keyword-anchored digit runs separated by more than
48 bytes, so the locator produces two separate consolidated intervals. -/
def exampleLogLong : List Char :=
  ("key:123456789012345678901234567890123456789012345678901234567890:key:1234567").toList

theorem exampleLogShort_intervals :
    entropyFindIntervalsKw 2 exampleLogShort = [(14, 16)] := by
  decide

theorem exampleLogLong_intervals :
    entropyFindIntervalsKw 2 (utf8Encode (stripAnsi exampleLogLong))
      = [(4, 76), (69, 76)] := by
  decide

/-- C9 counterexample: on the 20-byte input the low-level scan emits the
6-byte interval [14, 20) (it passes the `≥ 6` discard), but the core
re-extraction — whose tail trim also strips `"`, `'` and `;` after the
stitcher — shrinks it to [14, 16), so the engine emits an entropy match of
only 2 bytes: the `< 6` discard does *not* apply to the emitted matches. -/
theorem entropy_min_length_claim_false :
    entropyFindMatches shannonEntropy (1/2) 2 exampleLogShort
      = [(14, 16, asciiBytes "12")]
    ∧ (16 : Nat) - 14 < 6 := by
  constructor
  · rw [entropyFindMatches,
      entropyFindIntervals_reduction _ (adjacentDistinct_chain _ (by decide))
        (by decide) (by decide) (by decide),
      exampleLogShort_intervals]
    decide
  · decide

/-- C9 amended: the low-level scan discards intervals shorter than 6 bytes
*after its own* extraction, which never extends an interval (no stitcher) —
while the core extraction applies semantic anchor, leading trim, look-ahead
stitcher, tail trim in exactly this order and is followed by *no* length
filter, so core-emitted entropy matches may span fewer than 6 bytes. -/
theorem entropy_extraction_structure :
    (∀ (H : List Nat → ℝ) (thr : ℝ) (W : Nat) (text : List Nat),
      ∀ iv ∈ entropyScan H thr W text, 6 ≤ iv.2 - iv.1)
    ∧ (∀ (text : List Nat) (iv : Nat × Nat), (extractLow text iv).2 ≤ iv.2)
    ∧ (∀ (text : List Nat) (iv : Nat × Nat),
        extractCore text iv
          = (leadTrim text (anchorStart text iv.1 iv.2) iv.2,
             coreTailTrim text (leadTrim text (anchorStart text iv.1 iv.2) iv.2)
               (stitchEnd text iv.2))) := by
  refine ⟨?_, ?_, ?_⟩
  · intro H thr W text iv hiv
    rw [entropyScan] at hiv
    by_cases hshort : text.length < W
    · rw [if_pos hshort] at hiv; simp at hiv
    · rw [if_neg hshort] at hiv
      have := List.of_mem_filter hiv
      simpa using this
  · intro text iv
    rw [extractLow]
    have : ∀ (fuel e : Nat), lowTailGo text (leadTrim text
        (anchorStart text iv.1 iv.2) iv.2) fuel e ≤ e := by
      intro fuel
      induction fuel with
      | zero => intro e; simp [lowTailGo]
      | succ fuel ih =>
        intro e
        rw [lowTailGo]
        by_cases hb : (decide ((leadTrim text (anchorStart text iv.1 iv.2) iv.2) + 2 < e)
            && isLowTailByte (text.getD (e - 1) 0)) = true
        · rw [if_pos hb]
          have := ih (e - 1)
          omega
        · rw [if_neg hb]
    exact this _ _
  · intro text iv
    rfl

/-- Witness for C9's amended theorem: the low-level scan of the 20-byte input
emits exactly the interval [14, 20), of length ≥ 6. -/
theorem entropy_extraction_structure_witness : 6 ≤ 20 - 14 :=
  entropy_extraction_structure.1 shannonEntropy (1/2) 2 exampleLogShort (14, 20)
    (by
      rw [entropyScan_reduction _ (adjacentDistinct_chain _ (by decide))
        (by decide) (by decide) (by decide)]
      decide)

/-! ## C3: analyze versus summary-of-sanitize -/

/-- Embeds `RegexEngine::find_matches` over all rules: an association list from rule
name to that rule's matches (the `HashMap` keyed by unique rule names). -/
def regexFindAll (stripped : List Nat)
    (rules : List (String × List (List (Option (Nat × Nat))) × (List Nat → Bool))) :
    List (String × List (Nat × Nat × List Nat)) :=
  rules.map (fun r => (r.1, regexRuleMatches stripped r.2.1 r.2.2))

/-- The summary loop of `RegexEngine::sanitize`: one item per rule with
`occurrences = matches.len()`, built from `all_matches` (not from the applied
subset). -/
def regexSanitizeSummary (stripped : List Nat)
    (rules : List (String × List (List (Option (Nat × Nat))) × (List Nat → Bool))) :
    List (String × Nat) :=
  (regexFindAll stripped rules).map (fun rm => (rm.1, rm.2.length))

/-- The identical summary loop of `RegexEngine::analyze_for_stats`. -/
def regexAnalyzeSummary (stripped : List Nat)
    (rules : List (String × List (List (Option (Nat × Nat))) × (List Nat → Bool))) :
    List (String × Nat) :=
  (regexFindAll stripped rules).map (fun rm => (rm.1, rm.2.length))

/-- C3 counterexample: on the 76-byte input the entropy engine finds two
matches (refined to [4, 76) and [69, 76): the first one's look-ahead stitcher
runs through the unbroken token to the end of input, swallowing the second),
`analyze_for_stats` reports 2 occurrences, but `sanitize` drops the second
match as overlapping (`original_end ≤ last_end`) and its summary reports 1. -/
theorem analyze_sanitize_claim_false :
    entropyAnalyzeCount shannonEntropy (1/2) 2 exampleLogLong = 2
    ∧ (entropySanitize shannonEntropy (1/2) 2 exampleLogLong).2 = 1 := by
  have hred := entropyFindIntervals_reduction (utf8Encode (stripAnsi exampleLogLong))
    (adjacentDistinct_chain _ (by decide)) (by decide) (by decide) (by decide)
  constructor
  · rw [entropyAnalyzeCount, entropyFindMatches, hred, exampleLogLong_intervals]
    decide
  · rw [entropySanitize, entropyFindMatches, hred, exampleLogLong_intervals]
    decide

/-- C3 amended: for the pattern engine, `analyze` and the summary of
`sanitize` are built by the same loop over the same `all_matches` map and so
report identical per-rule counts; for the entropy engine, `analyze` counts
every found match while sanitize's summary counts only the matches it
applies, so its count can only be lower (and is strictly lower whenever
refined intervals overlap after mapping). -/
theorem analyze_vs_sanitize_summaries :
    (∀ (stripped : List Nat)
      (rules : List (String × List (List (Option (Nat × Nat))) × (List Nat → Bool))),
      regexSanitizeSummary stripped rules = regexAnalyzeSummary stripped rules)
    ∧ (∀ (H : List Nat → ℝ) (thr : ℝ) (W : Nat) (content : List Char),
      (entropySanitize H thr W content).2 ≤ entropyAnalyzeCount H thr W content) := by
  exact ⟨fun _ _ => rfl, fun H thr W content => entropySanitize_count_le H thr W content⟩

end Cleansh
